import Mathlib

/-!
# Luminance histogram and cumulative distribution (`cdf_cpu`)

A shallow embedding of `problem_sets/problem_set_3_hdr/cdf_cpu.cpp` and the
properties of it that the specification states.

Conventions of the embedding.

* The function is embedded twice.  `cdf_cpu` takes `float` values as exact
  rationals, with the quotient by a zero `logLumRange` as `none` (see
  `scaled`); it carries the properties that hold whatever bin an element is
  given, the scenarios at inputs on which binary32 and exact arithmetic
  agree, and the one property the specification states in exact arithmetic.
  `cdf_cpuF` is the function on binary32 values (`F32`): NaN, the two
  infinities and the finite values, every operation rounded to nearest with
  ties to even (`round32`), comparisons false on NaN.  It carries the
  properties that depend on the order of floats or on rounding.
* `static_cast<unsigned int>` of a float truncates toward zero.  Where the
  truncated value is not representable, or the operand is not finite, C++
  leaves the result open; it is then whatever the target's conversion
  instruction yields, a parameter of the embedding (`Target.fptoui`,
  `Conv.fptoui`).  Every theorem holds for all targets unless it names one.
* `unsigned int` arithmetic is arithmetic modulo `UINT_MOD = 2^32`;
  `numBins - 1` is computed in `std::size_t`, modulo `SIZE_MOD = 2^64`.  The
  product `numCols * numRows` is exact: it is the length of a buffer that
  exists in memory.
* Arrays are lists.  A read or write outside an array is undefined in C++.
  The embedding follows a run up to its first such access and ends there
  with `undefined`, which records the output locations as they are at that
  access.  The source has no stop at that point: what a run does from there
  on is not represented, and no theorem states it.
* The source text does not close the brace of the Step 1 loop and spells the
  bound of the zeroing loop `numBinss`; the embedding follows the step
  comments: Step 1 is the min/max loop alone, and the zeroing loop runs over
  `numBins` entries.
-/

namespace CdfCpu

/-- Number of values of `unsigned int`, `2^32`. -/
def UINT_MOD : Nat := 4294967296

/-- Number of values of `std::size_t`, `2^64`. -/
def SIZE_MOD : Nat := 18446744073709551616

/-- What the target's float to unsigned conversion yields where C++ leaves the
result of `static_cast<unsigned int>` open: on a non-finite operand (`none`)
and on a finite operand whose truncation is not an `unsigned int`. -/
structure Target where
  /-- Raw result of the conversion on such an operand. -/
  fptoui : Option ℚ → Nat

/-- The three output locations of `cdf_cpu`: the references `logLumMin`,
`logLumMax` and the caller's array `h_cdf`. -/
structure Outputs where
  /-- Contents of `logLumMin`. -/
  logLumMin : ℚ
  /-- Contents of `logLumMax`. -/
  logLumMax : ℚ
  /-- Contents of the array `h_cdf`. -/
  h_cdf : List Nat
  deriving DecidableEq

/-- How far the embedding follows a run: to its return, or to its first access
outside an array.  Both carry the contents of the output locations at that
point. -/
inductive Outcome where
  /-- The run reached the end of the function. -/
  | returned (o : Outputs)
  /-- The run reads or writes outside an array; `o` holds the output locations
  at the first such access, and the run is not followed further. -/
  | undefined (o : Outputs)
  deriving DecidableEq

/-- Contents of the output locations where the embedding of the run ends. -/
def Outcome.outputs : Outcome → Outputs
  | .returned o => o
  | .undefined o => o

/-- `std::min(a, b)`: `(b < a) ? b : a`. -/
def stdMin {α : Type} [LinearOrder α] (a b : α) : α := if b < a then b else a

/-- `std::max(a, b)`: `(a < b) ? b : a`. -/
def stdMax {α : Type} [LinearOrder α] (a b : α) : α := if a < b then b else a

/-- Step 1, the loop body over the elements after the first:
`logLumMin = std::min(h_logLuminance[i], logLumMin)` and
`logLumMax = std::max(h_logLuminance[i], logLumMax)`. -/
def rangeLoop : List ℚ → ℚ × ℚ → ℚ × ℚ
  | [], r => r
  | x :: xs, r => rangeLoop xs (stdMin x r.1, stdMax x r.2)

/-- The float `(x - logLumMin) / logLumRange * numBins`; `none` when
`logLumRange` is zero and the value is therefore not finite. -/
def scaled (numBins : Nat) (logLumMin logLumRange x : ℚ) : Option ℚ :=
  if logLumRange = 0 then none else some ((x - logLumMin) / logLumRange * (numBins : ℚ))

/-- Truncation of a float toward zero. -/
def truncate (v : ℚ) : Int := Int.tdiv v.num v.den

/-- `static_cast<unsigned int>` of a float. -/
def castUInt (T : Target) : Option ℚ → Nat
  | some v =>
    if 0 ≤ truncate v ∧ truncate v < (UINT_MOD : Int) then (truncate v).toNat
    else T.fptoui (some v) % UINT_MOD
  | none => T.fptoui none % UINT_MOD

/-- `static_cast<unsigned int>(numBins - 1)`, the subtraction in `size_t`. -/
def upperBin (numBins : Nat) : Nat := (numBins + SIZE_MOD - 1) % SIZE_MOD % UINT_MOD

/-- The bin of element `x`:
`std::min(static_cast<unsigned int>(numBins-1),
static_cast<unsigned int>((x - logLumMin) / logLumRange * numBins))`. -/
def binIndex (T : Target) (numBins : Nat) (logLumMin logLumRange x : ℚ) : Nat :=
  stdMin (upperBin numBins) (castUInt T (scaled numBins logLumMin logLumRange x))

/-- Step 3, the binning loop: `histo[bin]++` for each element in turn;
`none` when `bin` is outside `histo`. -/
def histoLoop {α : Type} (bin : α → Nat) : List α → List Nat → Option (List Nat)
  | [], histo => some histo
  | x :: xs, histo =>
    if bin x < histo.length then
      histoLoop bin xs (histo.set (bin x) ((histo.getD (bin x) 0 + 1) % UINT_MOD))
    else none

/-- Step 4, the scan loop from index `i` with `k` iterations to go:
`h_cdf[i] = h_cdf[i-1] + histo[i-1]`; `Except.error` with the array as it
stands when `i` is outside `h_cdf`. -/
def scanLoop (histo : List Nat) : Nat → Nat → List Nat → Except (List Nat) (List Nat)
  | 0, _, h_cdf => .ok h_cdf
  | k + 1, i, h_cdf =>
    if i < h_cdf.length then
      scanLoop histo k (i + 1)
        (h_cdf.set i ((h_cdf.getD (i - 1) 0 + histo.getD (i - 1) 0) % UINT_MOD))
    else .error h_cdf

/-- The function `cdf_cpu`.  `h_cdf`, `logLumMin` and `logLumMax` are the
contents of the output locations on entry. -/
def cdf_cpu (T : Target) (h_logLuminance : List ℚ) (h_cdf : List Nat)
    (numRows numCols numBins : Nat) (logLumMin logLumMax : ℚ) : Outcome :=
  match h_logLuminance with
  | [] => .undefined ⟨logLumMin, logLumMax, h_cdf⟩
  | first :: rest =>
    let r := rangeLoop (rest.take (numCols * numRows - 1)) (first, first)
    if (first :: rest).length < numCols * numRows then .undefined ⟨r.1, r.2, h_cdf⟩
    else
      let logLumRange := r.2 - r.1
      match histoLoop (binIndex T numBins r.1 logLumRange)
          ((first :: rest).take (numCols * numRows)) (List.replicate numBins 0) with
      | none => .undefined ⟨r.1, r.2, h_cdf⟩
      | some histo =>
        if 0 < h_cdf.length then
          match scanLoop histo (numBins - 1) 1 (h_cdf.set 0 0) with
          | .ok cdf => .returned ⟨r.1, r.2, cdf⟩
          | .error cdf => .undefined ⟨r.1, r.2, cdf⟩
        else .undefined ⟨r.1, r.2, h_cdf⟩

/-- The range Step 1 leaves in `(logLumMin, logLumMax)` when the loop runs over
the whole of `buf`. -/
def lumRange (buf : List ℚ) : ℚ × ℚ :=
  match buf with
  | [] => (0, 0)
  | first :: rest => rangeLoop rest (first, first)

/-- The bin Step 3 computes for an element `x` of `buf`, with the range of
`buf` from Step 1. -/
def binOf (T : Target) (buf : List ℚ) (numBins : Nat) (x : ℚ) : Nat :=
  binIndex T numBins (lumRange buf).1 ((lumRange buf).2 - (lumRange buf).1) x

/-- The scratch array `histo` after Step 3 on the whole of `buf`. -/
def histogram (T : Target) (buf : List ℚ) (numBins : Nat) : Option (List Nat) :=
  histoLoop (binOf T buf numBins) buf (List.replicate numBins 0)

/-- The number of elements of `buf` that are assigned bin `j`. -/
def binCount (T : Target) (buf : List ℚ) (numBins j : Nat) : Nat :=
  buf.countP (fun x => decide (binOf T buf numBins x = j))

/-- The number of elements of `buf` whose bin index is strictly less than `i`. -/
def countBelow (T : Target) (buf : List ℚ) (numBins i : Nat) : Nat :=
  buf.countP (fun x => decide (binOf T buf numBins x < i))

/-- A target whose conversion yields `0` on the operands C++ leaves open, as
the low 32 bits of the 64-bit `cvttss2si` result do for NaN. -/
def zeroTarget : Target := ⟨fun _ => 0⟩

/-- A target whose conversion yields `UINT_MAX` on those operands, as the
AVX-512 unsigned conversion does. -/
def satTarget : Target := ⟨fun _ => 4294967295⟩

/-- The bin index in the words of the specification:
`clamp(floor((x - min) / (max - min) * numBins), 0, numBins - 1)`. -/
def specBin (numBins : Nat) (logLumMin logLumMax x : ℚ) : Int :=
  max 0 (min ((numBins : Int) - 1)
    ⌊(x - logLumMin) / (logLumMax - logLumMin) * (numBins : ℚ)⌋)

/-- The buffer with every element `x` replaced by `a * x + c`. -/
def rescale (a c : ℚ) (buf : List ℚ) : List ℚ := buf.map (fun x => a * x + c)

/-- Monitor of the binning loop: it follows the states of `histoLoop` and
tells whether at every `histo[bin]++` the exact value `histo[bin] + 1` is an
`unsigned int`. -/
def histoNoWrap {α : Type} (bin : α → Nat) : List α → List Nat → Bool
  | [], _ => true
  | x :: xs, histo =>
    decide (histo.getD (bin x) 0 + 1 < UINT_MOD) &&
      histoNoWrap bin xs (histo.set (bin x) ((histo.getD (bin x) 0 + 1) % UINT_MOD))

/-- Monitor of the scan loop: it follows the states of `scanLoop` and tells
whether at every `h_cdf[i-1] + histo[i-1]` the exact sum is an
`unsigned int`. -/
def scanNoWrap (histo : List Nat) : Nat → Nat → List Nat → Bool
  | 0, _, _ => true
  | k + 1, i, h_cdf =>
    decide (h_cdf.getD (i - 1) 0 + histo.getD (i - 1) 0 < UINT_MOD) &&
      scanNoWrap histo k (i + 1)
        (h_cdf.set i ((h_cdf.getD (i - 1) 0 + histo.getD (i - 1) 0) % UINT_MOD))

/-- A binary32 value: NaN, an infinity, or a finite value given by the
rational it stands for.  `fin q` is a `float` when `q` is representable
(`F32.isBinary32`); the operations return representable values.  The two
zeros are one value, `fin 0`: they compare equal, and in this function the
zero divisor is always `+0` (the range of a buffer whose minimum and maximum
are equal) and a zero scaled value converts to bin 0 whatever its sign. -/
inductive F32 where
  /-- Not a number. -/
  | nan
  /-- Minus infinity. -/
  | ninf
  /-- A finite value. -/
  | fin (q : ℚ)
  /-- Plus infinity. -/
  | pinf
  deriving DecidableEq

/-- Number of binary digits of `n`, computed with `fuel` halvings at most;
`bitLen n n` is the bit length of `n`. -/
def bitLen : Nat → Nat → Nat
  | 0, _ => 0
  | fuel + 1, n => if n = 0 then 0 else bitLen fuel (n / 2) + 1

/-- The power `2^k` for an integer exponent. -/
def pow2 (k : Int) : ℚ :=
  if 0 ≤ k then ((2 ^ k.toNat : Nat) : ℚ) else 1 / ((2 ^ (-k).toNat : Nat) : ℚ)

/-- The binary exponent of a positive rational `a`: the `e` with
`2^e ≤ a < 2^(e+1)`. -/
def expOf (a : ℚ) : Int :=
  if pow2 ((bitLen a.num.natAbs a.num.natAbs : Int) - (bitLen a.den a.den : Int)) ≤ a then
    (bitLen a.num.natAbs a.num.natAbs : Int) - (bitLen a.den a.den : Int)
  else (bitLen a.num.natAbs a.num.natAbs : Int) - (bitLen a.den a.den : Int) - 1

/-- Rounding to the nearest integer, ties to the even one. -/
def roundHalfEven (x : ℚ) : Int :=
  if x - ⌊x⌋ < 1 / 2 then ⌊x⌋
  else if 1 / 2 < x - ⌊x⌋ then ⌊x⌋ + 1
  else if ⌊x⌋ % 2 = 0 then ⌊x⌋ else ⌊x⌋ + 1

/-- The exponent of the last place of binary32 at a positive `a`: 24
significant bits, and not below `2^-149`, the spacing of the subnormals. -/
def quantExp (a : ℚ) : Int := max (expOf a - 23) (-149)

/-- A positive `a` rounded to the nearest multiple of its last place, ties to
even, with no bound on the exponent from above. -/
def roundPos (a : ℚ) : ℚ := (roundHalfEven (a / pow2 (quantExp a)) : ℚ) * pow2 (quantExp a)

/-- Rounding of an exact result to binary32, to nearest with ties to even; a
result that rounds to `2^128` or more in magnitude overflows to an infinity. -/
def round32 (q : ℚ) : F32 :=
  if q = 0 then .fin 0
  else if 0 < q then
    if pow2 128 ≤ roundPos q then .pinf else .fin (roundPos q)
  else
    if pow2 128 ≤ roundPos (-q) then .ninf else .fin (-roundPos (-q))

/-- The float comparison `a < b`; false when an operand is NaN. -/
def F32.lt : F32 → F32 → Bool
  | .nan, _ => false
  | _, .nan => false
  | .ninf, .ninf => false
  | .ninf, _ => true
  | .fin _, .ninf => false
  | .fin a, .fin b => decide (a < b)
  | .fin _, .pinf => true
  | .pinf, _ => false

/-- The float comparison `a <= b`; false when an operand is NaN. -/
def F32.le : F32 → F32 → Bool
  | .nan, _ => false
  | _, .nan => false
  | .ninf, _ => true
  | .fin _, .ninf => false
  | .fin a, .fin b => decide (a ≤ b)
  | .fin _, .pinf => true
  | .pinf, .pinf => true
  | .pinf, _ => false

/-- The float difference `a - b`. -/
def F32.sub : F32 → F32 → F32
  | .nan, _ => .nan
  | _, .nan => .nan
  | .pinf, .pinf => .nan
  | .ninf, .ninf => .nan
  | .pinf, _ => .pinf
  | .ninf, _ => .ninf
  | .fin _, .pinf => .ninf
  | .fin _, .ninf => .pinf
  | .fin a, .fin b => round32 (a - b)

/-- The float quotient `a / b`; a zero divisor is `+0`. -/
def F32.div : F32 → F32 → F32
  | .nan, _ => .nan
  | _, .nan => .nan
  | .pinf, .pinf => .nan
  | .pinf, .ninf => .nan
  | .ninf, .pinf => .nan
  | .ninf, .ninf => .nan
  | .pinf, .fin b => if b < 0 then .ninf else .pinf
  | .ninf, .fin b => if b < 0 then .pinf else .ninf
  | .fin _, .pinf => .fin 0
  | .fin _, .ninf => .fin 0
  | .fin a, .fin b =>
    if b = 0 then (if a = 0 then .nan else if 0 < a then .pinf else .ninf)
    else round32 (a / b)

/-- The float product `a * b`. -/
def F32.mul : F32 → F32 → F32
  | .nan, _ => .nan
  | _, .nan => .nan
  | .pinf, .pinf => .pinf
  | .pinf, .ninf => .ninf
  | .ninf, .pinf => .ninf
  | .ninf, .ninf => .pinf
  | .pinf, .fin b => if b = 0 then .nan else if 0 < b then .pinf else .ninf
  | .ninf, .fin b => if b = 0 then .nan else if 0 < b then .ninf else .pinf
  | .fin a, .pinf => if a = 0 then .nan else if 0 < a then .pinf else .ninf
  | .fin a, .ninf => if a = 0 then .nan else if 0 < a then .ninf else .pinf
  | .fin a, .fin b => round32 (a * b)

/-- The conversion of a `size_t` to float. -/
def F32.ofNat (n : Nat) : F32 := round32 (n : ℚ)

/-- What the target's float to unsigned conversion yields where C++ leaves the
result of `static_cast<unsigned int>` open: on NaN, on an infinity, and on a
finite operand whose truncation is not an `unsigned int`. -/
structure Conv where
  /-- Raw result of the conversion on such an operand. -/
  fptoui : F32 → Nat

/-- A target whose conversion yields `0` on the operands C++ leaves open, as
the low 32 bits of the 64-bit `cvttss2si` result do. -/
def zeroConv : Conv := ⟨fun _ => 0⟩

/-- A target whose conversion yields `UINT_MAX` on those operands, as the
AVX-512 unsigned conversion does. -/
def satConv : Conv := ⟨fun _ => 4294967295⟩

/-- `static_cast<unsigned int>` of a binary32 value. -/
def castUIntF (C : Conv) : F32 → Nat
  | .fin v =>
    if 0 ≤ truncate v ∧ truncate v < (UINT_MOD : Int) then (truncate v).toNat
    else C.fptoui (.fin v) % UINT_MOD
  | .nan => C.fptoui .nan % UINT_MOD
  | .ninf => C.fptoui .ninf % UINT_MOD
  | .pinf => C.fptoui .pinf % UINT_MOD

/-- The binary32 value of `(x - logLumMin) / logLumRange * numBins`, every
operation rounded to binary32 and `numBins`, a `size_t`, converted to float. -/
def scaledF (numBins : Nat) (logLumMin logLumRange x : F32) : F32 :=
  F32.mul (F32.div (F32.sub x logLumMin) logLumRange) (F32.ofNat (numBins % SIZE_MOD))

/-- The bin of element `x` in binary32:
`std::min(static_cast<unsigned int>(numBins-1),
static_cast<unsigned int>((x - logLumMin) / logLumRange * numBins))`. -/
def binIndexF (C : Conv) (numBins : Nat) (logLumMin logLumRange x : F32) : Nat :=
  stdMin (upperBin numBins) (castUIntF C (scaledF numBins logLumMin logLumRange x))

/-- `std::min(a, b)` on floats: `(b < a) ? b : a`. -/
def stdMinF (a b : F32) : F32 := if F32.lt b a then b else a

/-- `std::max(a, b)` on floats: `(a < b) ? b : a`. -/
def stdMaxF (a b : F32) : F32 := if F32.lt a b then b else a

/-- Step 1 on floats, the loop body over the elements after the first:
`logLumMin = std::min(h_logLuminance[i], logLumMin)` and
`logLumMax = std::max(h_logLuminance[i], logLumMax)`. -/
def rangeLoopF : List F32 → F32 × F32 → F32 × F32
  | [], r => r
  | x :: xs, r => rangeLoopF xs (stdMinF x r.1, stdMaxF x r.2)

/-- The three output locations of `cdf_cpu`, the scalars as floats. -/
structure OutputsF where
  /-- Contents of `logLumMin`. -/
  logLumMin : F32
  /-- Contents of `logLumMax`. -/
  logLumMax : F32
  /-- Contents of the array `h_cdf`. -/
  h_cdf : List Nat
  deriving DecidableEq

/-- How the embedding of a run on floats ends: the run returns, or it makes an
access outside an array.  In the second case `o` holds the output locations
at the first such access, and the run is not followed any further. -/
inductive OutcomeF where
  /-- The run reached the end of the function. -/
  | returned (o : OutputsF)
  /-- The run makes an access outside an array. -/
  | undefined (o : OutputsF)
  deriving DecidableEq

/-- Contents of the output locations where the embedding of the run ends. -/
def OutcomeF.outputs : OutcomeF → OutputsF
  | .returned o => o
  | .undefined o => o

/-- The function `cdf_cpu` on binary32 values.  `h_cdf`, `logLumMin` and
`logLumMax` are the contents of the output locations on entry. -/
def cdf_cpuF (C : Conv) (h_logLuminance : List F32) (h_cdf : List Nat)
    (numRows numCols numBins : Nat) (logLumMin logLumMax : F32) : OutcomeF :=
  match h_logLuminance with
  | [] => .undefined ⟨logLumMin, logLumMax, h_cdf⟩
  | first :: rest =>
    let r := rangeLoopF (rest.take (numCols * numRows - 1)) (first, first)
    if (first :: rest).length < numCols * numRows then .undefined ⟨r.1, r.2, h_cdf⟩
    else
      let logLumRange := F32.sub r.2 r.1
      match histoLoop (binIndexF C numBins r.1 logLumRange)
          ((first :: rest).take (numCols * numRows)) (List.replicate numBins 0) with
      | none => .undefined ⟨r.1, r.2, h_cdf⟩
      | some histo =>
        if 0 < h_cdf.length then
          match scanLoop histo (numBins - 1) 1 (h_cdf.set 0 0) with
          | .ok cdf => .returned ⟨r.1, r.2, cdf⟩
          | .error cdf => .undefined ⟨r.1, r.2, cdf⟩
        else .undefined ⟨r.1, r.2, h_cdf⟩

/-- The range Step 1 leaves in `(logLumMin, logLumMax)` when the loop runs over
the whole of the float buffer `buf`. -/
def lumRangeF (buf : List F32) : F32 × F32 :=
  match buf with
  | [] => (.fin 0, .fin 0)
  | first :: rest => rangeLoopF rest (first, first)

/-- The value of `logLumRange` for the float buffer `buf`. -/
def lumSpanF (buf : List F32) : F32 := F32.sub (lumRangeF buf).2 (lumRangeF buf).1

/-- The bin Step 3 computes for an element `x` of the float buffer `buf`. -/
def binOfF (C : Conv) (buf : List F32) (numBins : Nat) (x : F32) : Nat :=
  binIndexF C numBins (lumRangeF buf).1 (lumSpanF buf) x

/-- The scratch array `histo` after Step 3 on the whole of the float buffer. -/
def histogramF (C : Conv) (buf : List F32) (numBins : Nat) : Option (List Nat) :=
  histoLoop (binOfF C buf numBins) buf (List.replicate numBins 0)

/-- The number of elements of the float buffer that are assigned bin `j`. -/
def binCountF (C : Conv) (buf : List F32) (numBins j : Nat) : Nat :=
  buf.countP (fun x => decide (binOfF C buf numBins x = j))

/-- The number of elements of the float buffer with a bin below `i`. -/
def countBelowF (C : Conv) (buf : List F32) (numBins i : Nat) : Nat :=
  buf.countP (fun x => decide (binOfF C buf numBins x < i))

/-- Whether a value of the embedding is a binary32 value: a NaN, an infinity,
or a finite rational that rounding to binary32 leaves unchanged. -/
def F32.isBinary32 : F32 → Bool
  | .fin q => decide (round32 q = .fin q)
  | _ => true

/-- Whether the float of `numBins` is at least `numBins - 1` and below `2^32`.
The scaled value of the maximum is the float of `numBins`; under this
condition it converts to an `unsigned int` that is not below the last bin. -/
def numBinsFloatOk (numBins : Nat) : Bool :=
  match F32.ofNat (numBins % SIZE_MOD) with
  | .fin n => decide ((numBins : ℚ) - 1 ≤ n ∧ n < 4294967296)
  | _ => false

/-- The bin index in the words of the specification, with the arithmetic of
the code: `clamp(floor(v), 0, numBins - 1)` for the binary32 value `v` of
`(x - min) / (max - min) * numBins`; `none` when that value is not finite. -/
def specBinF (numBins : Nat) (logLumMin logLumMax x : F32) : Option Int :=
  match scaledF numBins logLumMin (F32.sub logLumMax logLumMin) x with
  | .fin v => some (max 0 (min ((numBins : Int) - 1) ⌊v⌋))
  | _ => none

/-- Whether the bin index of the specification, `specBinF`, of element `x` is
below `i`. -/
def specBelowF (numBins : Nat) (logLumMin logLumMax : F32) (i : Nat) (x : F32) : Bool :=
  match specBinF numBins logLumMin logLumMax x with
  | some k => decide (k < (i : Int))
  | none => false

/-- The float buffer of `2^32 + 1` elements: `2^32` zeros and a one. -/
def wideBufferF : List F32 := List.replicate 4294967296 (.fin 0) ++ [.fin 1]

/-- The float buffer of `2^32 + 2` elements: `2^32 - 1` zeros, two ones and a
two. -/
def wideBufferF3 : List F32 := List.replicate 4294967295 (.fin 0) ++ [.fin 1, .fin 1, .fin 2]

/-! ## `std::min`, `std::max` and Step 1 -/

theorem stdMin_eq_min {α : Type} [LinearOrder α] (a b : α) : stdMin a b = min a b := by
  unfold stdMin
  rcases lt_or_le b a with h | h
  · rw [if_pos h, min_eq_right h.le]
  · rw [if_neg (not_lt.mpr h), min_eq_left h]

theorem stdMax_eq_max {α : Type} [LinearOrder α] (a b : α) : stdMax a b = max a b := by
  unfold stdMax
  rcases lt_or_le a b with h | h
  · rw [if_pos h, max_eq_right h.le]
  · rw [if_neg (not_lt.mpr h), max_eq_left h]

theorem rangeLoop_fst_le (xs : List ℚ) (r : ℚ × ℚ) :
    (rangeLoop xs r).1 ≤ r.1 ∧ ∀ x ∈ xs, (rangeLoop xs r).1 ≤ x := by
  induction xs generalizing r with
  | nil => simp [rangeLoop]
  | cons y ys ih =>
    obtain ⟨h1, h2⟩ := ih (stdMin y r.1, stdMax y r.2)
    rw [rangeLoop]
    simp only [stdMin_eq_min, stdMax_eq_max] at h1 h2 ⊢
    refine ⟨le_trans h1 (min_le_right _ _), ?_⟩
    intro x hx
    rcases List.mem_cons.mp hx with rfl | hx
    · exact le_trans h1 (min_le_left _ _)
    · exact h2 x hx

theorem le_rangeLoop_snd (xs : List ℚ) (r : ℚ × ℚ) :
    r.2 ≤ (rangeLoop xs r).2 ∧ ∀ x ∈ xs, x ≤ (rangeLoop xs r).2 := by
  induction xs generalizing r with
  | nil => simp [rangeLoop]
  | cons y ys ih =>
    obtain ⟨h1, h2⟩ := ih (stdMin y r.1, stdMax y r.2)
    rw [rangeLoop]
    simp only [stdMin_eq_min, stdMax_eq_max] at h1 h2 ⊢
    refine ⟨le_trans (le_max_right _ _) h1, ?_⟩
    intro x hx
    rcases List.mem_cons.mp hx with rfl | hx
    · exact le_trans (le_max_left _ _) h1
    · exact h2 x hx

theorem rangeLoop_fst_mem (xs : List ℚ) (r : ℚ × ℚ) :
    (rangeLoop xs r).1 = r.1 ∨ (rangeLoop xs r).1 ∈ xs := by
  induction xs generalizing r with
  | nil => simp [rangeLoop]
  | cons y ys ih =>
    rw [rangeLoop]
    rcases ih (stdMin y r.1, stdMax y r.2) with h | h
    · simp only [stdMin_eq_min, stdMax_eq_max] at h ⊢
      rcases min_choice y r.1 with hm | hm
      · right; rw [h, hm]; exact List.mem_cons_self _ _
      · left; rw [h, hm]
    · right; exact List.mem_cons_of_mem _ h

theorem rangeLoop_snd_mem (xs : List ℚ) (r : ℚ × ℚ) :
    (rangeLoop xs r).2 = r.2 ∨ (rangeLoop xs r).2 ∈ xs := by
  induction xs generalizing r with
  | nil => simp [rangeLoop]
  | cons y ys ih =>
    rw [rangeLoop]
    rcases ih (stdMin y r.1, stdMax y r.2) with h | h
    · simp only [stdMin_eq_min, stdMax_eq_max] at h ⊢
      rcases max_choice y r.2 with hm | hm
      · right; rw [h, hm]; exact List.mem_cons_self _ _
      · left; rw [h, hm]
    · right; exact List.mem_cons_of_mem _ h

/-- Step 1 on a non-empty buffer: the first component is a lower bound and an
element, the second an upper bound and an element. -/
theorem lumRange_spec (buf : List ℚ) (hne : buf ≠ []) :
    (∀ x ∈ buf, (lumRange buf).1 ≤ x ∧ x ≤ (lumRange buf).2) ∧
      (lumRange buf).1 ∈ buf ∧ (lumRange buf).2 ∈ buf := by
  cases buf with
  | nil => exact absurd rfl hne
  | cons first rest =>
    have hlo := rangeLoop_fst_le rest (first, first)
    have hhi := le_rangeLoop_snd rest (first, first)
    refine ⟨?_, ?_, ?_⟩
    · intro x hx
      rcases List.mem_cons.mp hx with rfl | hx
      · exact ⟨hlo.1, hhi.1⟩
      · exact ⟨hlo.2 x hx, hhi.2 x hx⟩
    · rcases rangeLoop_fst_mem rest (first, first) with h | h
      · simp only [lumRange, h]; exact List.mem_cons_self _ _
      · exact List.mem_cons_of_mem _ h
    · rcases rangeLoop_snd_mem rest (first, first) with h | h
      · simp only [lumRange, h]; exact List.mem_cons_self _ _
      · exact List.mem_cons_of_mem _ h

/-! ## Arrays as lists -/

theorem getD_set (l : List Nat) (i j a : Nat) :
    (l.set i a).getD j 0 = if i = j ∧ i < l.length then a else l.getD j 0 := by
  simp only [List.getD_eq_getElem?_getD, List.getElem?_set]
  by_cases hij : i = j
  · by_cases hi : i < l.length
    · subst hij
      simp [hi]
    · subst hij
      have : l[i]? = none := List.getElem?_eq_none (not_lt.mp hi)
      simp [hi, this]
  · simp [hij]

theorem map_range_getD (l : List Nat) :
    (List.range l.length).map (fun j => l.getD j 0) = l := by
  apply List.ext_getElem (by simp)
  intro n h1 h2
  simp [List.getD_eq_getElem?_getD, List.getElem?_eq_getElem h2]

theorem getD_map_range (f : Nat → Nat) (n j : Nat) (hj : j < n) :
    ((List.range n).map f).getD j 0 = f j := by
  simp [List.getD_eq_getElem?_getD, List.getElem?_range hj]

theorem sum_take_succ_getD (l : List Nat) (n : Nat) :
    (l.take (n + 1)).sum = (l.take n).sum + l.getD n 0 := by
  induction l generalizing n with
  | nil => simp
  | cons a as ih =>
    cases n with
    | zero => simp
    | succ m =>
      have h := ih m
      simp only [List.take_succ_cons, List.sum_cons, List.getD_cons_succ] at h ⊢
      omega

/-! ## Step 3: the binning loop -/

/-- The binning loop in closed form: entry `j` ends as its initial value plus
the number of elements with bin `j`, modulo `2^32`. -/
theorem histoLoop_eq {α : Type} (bin : α → Nat) (pixels : List α) (histo : List Nat)
    (hbin : ∀ x ∈ pixels, bin x < histo.length) (hlt : ∀ j, histo.getD j 0 < UINT_MOD) :
    histoLoop bin pixels histo = some ((List.range histo.length).map
      (fun j => (histo.getD j 0 + pixels.countP (fun x => decide (bin x = j))) % UINT_MOD)) := by
  induction pixels generalizing histo with
  | nil =>
    have h : (List.range histo.length).map (fun j => (histo.getD j 0 + 0) % UINT_MOD) = histo := by
      conv_rhs => rw [← map_range_getD histo]
      apply List.map_congr_left
      intro j _
      rw [Nat.add_zero, Nat.mod_eq_of_lt (hlt j)]
    simpa [histoLoop] using h.symm
  | cons x xs ih =>
    have hx : bin x < histo.length := hbin x (List.mem_cons_self _ _)
    rw [histoLoop, if_pos hx]
    rw [ih]
    · rw [List.length_set]
      congr 1
      apply List.map_congr_left
      intro j _
      rw [getD_set, List.countP_cons]
      by_cases hj : bin x = j
      · simp only [hj, true_and, decide_True, if_true]
        rw [← hj, if_pos hx, Nat.mod_add_mod]
        congr 1
        omega
      · simp [hj]
    · intro y hy
      rw [List.length_set]
      exact hbin y (List.mem_cons_of_mem _ hy)
    · intro j
      rw [getD_set]
      split
      · exact Nat.mod_lt _ (by decide)
      · exact hlt j

/-! ## Step 4: the scan loop -/

/-- The scan loop in closed form: once the entries below `i` hold the sums of
the preceding `histo` entries modulo `2^32`, so do the entries below `i + k`
after `k` iterations, and the entries from `i + k` on are untouched. -/
theorem scanLoop_eq (histo : List Nat) (k i : Nat) (c : List Nat)
    (hi : 1 ≤ i) (hlen : i + k ≤ c.length)
    (hpre : ∀ j, j < i → c.getD j 0 = (histo.take j).sum % UINT_MOD) :
    scanLoop histo k i c = .ok ((List.range c.length).map
      (fun j => if j < i + k then (histo.take j).sum % UINT_MOD else c.getD j 0)) := by
  induction k generalizing i c with
  | zero =>
    rw [scanLoop]
    congr 1
    conv_lhs => rw [← map_range_getD c]
    apply List.map_congr_left
    intro j _
    by_cases hj : j < i
    · simp only [Nat.add_zero, hj, if_true]
      exact hpre j hj
    · simp only [Nat.add_zero, hj, if_false]
  | succ k ih =>
    have hic : i < c.length := by omega
    rw [scanLoop, if_pos hic]
    have hv : (c.getD (i - 1) 0 + histo.getD (i - 1) 0) % UINT_MOD
        = (histo.take i).sum % UINT_MOD := by
      rw [hpre (i - 1) (by omega), Nat.mod_add_mod, ← sum_take_succ_getD]
      congr 3
      omega
    rw [ih]
    · rw [List.length_set]
      congr 1
      apply List.map_congr_left
      intro j _
      by_cases hj : j < i + (k + 1)
      · have hj2 : j < i + 1 + k := by omega
        simp [hj, hj2]
      · have hj2 : ¬ j < i + 1 + k := by omega
        have hne : ¬ (i = j ∧ i < c.length) := by omega
        simp only [hj, hj2, if_false]
        rw [getD_set, if_neg hne]
    · omega
    · rw [List.length_set]; omega
    · intro j hj
      rw [getD_set]
      by_cases hji : i = j
      · rw [if_pos ⟨hji, hic⟩, hv, hji]
      · rw [if_neg (fun h => hji h.1)]
        exact hpre j (by omega)

/-! ## Counting elements per bin -/

theorem countP_lt_succ {α : Type} (bin : α → Nat) (l : List α) (j : Nat) :
    l.countP (fun x => decide (bin x < j + 1))
      = l.countP (fun x => decide (bin x < j)) + l.countP (fun x => decide (bin x = j)) := by
  induction l with
  | nil => simp
  | cons a as ih =>
    simp only [List.countP_cons, ih]
    rcases Nat.lt_trichotomy (bin a) j with h | h | h
    · have h1 : bin a < j + 1 := by omega
      have h2 : bin a ≠ j := by omega
      simp [h, h1, h2]
      omega
    · have h1 : bin a < j + 1 := by omega
      have h2 : ¬ bin a < j := by omega
      simp [h, h1, h2]
      omega
    · have h1 : ¬ bin a < j + 1 := by omega
      have h2 : ¬ bin a < j := by omega
      have h3 : bin a ≠ j := by omega
      simp [h1, h2, h3]

theorem sum_countP_eq {α : Type} (bin : α → Nat) (l : List α) (i : Nat) :
    ((List.range i).map (fun j => l.countP (fun x => decide (bin x = j)))).sum
      = l.countP (fun x => decide (bin x < i)) := by
  induction i with
  | zero => simp
  | succ i ih => rw [List.sum_range_succ, ih, countP_lt_succ]

theorem sum_map_mod (f : Nat → Nat) (i : Nat) :
    ((List.range i).map (fun j => f j % UINT_MOD)).sum % UINT_MOD
      = ((List.range i).map f).sum % UINT_MOD := by
  induction i with
  | zero => simp
  | succ i ih =>
    rw [List.sum_range_succ, List.sum_range_succ, Nat.add_mod, ih, Nat.mod_mod, ← Nat.add_mod]

/-- The sum of the first `i` entries of the wrapped histogram is, modulo
`2^32`, the number of elements with a bin below `i`. -/
theorem sum_take_histo {α : Type} (bin : α → Nat) (l : List α) (n i : Nat) (hi : i ≤ n) :
    (((List.range n).map
        (fun j => (0 + l.countP (fun x => decide (bin x = j))) % UINT_MOD)).take i).sum % UINT_MOD
      = l.countP (fun x => decide (bin x < i)) % UINT_MOD := by
  rw [← List.map_take, List.take_range, min_eq_left hi]
  simp only [Nat.zero_add]
  rw [sum_map_mod, sum_countP_eq]

/-! ## The bin index stays inside the histogram -/

theorem upperBin_lt (numBins : Nat) (h : 0 < numBins) : upperBin numBins < numBins := by
  unfold upperBin SIZE_MOD UINT_MOD
  omega

theorem stdMin_le_left {α : Type} [LinearOrder α] (a b : α) : stdMin a b ≤ a := by
  rw [stdMin_eq_min]; exact min_le_left _ _

theorem binIndex_lt (T : Target) (numBins : Nat) (mn rg x : ℚ) (h : 0 < numBins) :
    binIndex T numBins mn rg x < numBins :=
  lt_of_le_of_lt (stdMin_le_left _ _) (upperBin_lt numBins h)

theorem binOf_lt (T : Target) (buf : List ℚ) (numBins : Nat) (x : ℚ) (h : 0 < numBins) :
    binOf T buf numBins x < numBins :=
  binIndex_lt T numBins _ _ x h

/-! ## The run in closed form -/

/-- The scratch histogram after Step 3: entry `j` is the number of elements
with bin `j`, modulo `2^32`. -/
theorem histogram_eq (T : Target) (buf : List ℚ) (numBins : Nat) (h : 0 < numBins) :
    histogram T buf numBins
      = some ((List.range numBins).map (fun j => binCount T buf numBins j % UINT_MOD)) := by
  unfold histogram
  rw [histoLoop_eq]
  · simp only [List.length_replicate, binCount]
    congr 1
    apply List.map_congr_left
    intro j hj
    have hj2 : j < numBins := List.mem_range.mp hj
    simp [List.getD_eq_getElem?_getD, List.getElem?_replicate, hj2]
  · intro x _
    rw [List.length_replicate]
    exact binOf_lt T buf numBins x h
  · intro j
    simp only [List.getD_eq_getElem?_getD, List.getElem?_replicate]
    split <;> simp [UINT_MOD]

/-- On a non-empty buffer of `numRows * numCols` elements, with a positive
`numBins` and an output array of `numBins` entries, `cdf_cpu` returns the
range of the buffer and, in entry `i`, the number of elements with a bin
below `i`, modulo `2^32`, whatever the output locations held on entry. -/
theorem cdf_cpu_eq (T : Target) (buf : List ℚ) (h_cdf : List Nat)
    (numRows numCols numBins : Nat) (a b : ℚ)
    (hne : buf ≠ []) (hlen : buf.length = numRows * numCols)
    (hbins : 0 < numBins) (hcap : h_cdf.length = numBins) :
    cdf_cpu T buf h_cdf numRows numCols numBins a b
      = .returned ⟨(lumRange buf).1, (lumRange buf).2,
          (List.range numBins).map (fun i => countBelow T buf numBins i % UINT_MOD)⟩ := by
  cases buf with
  | nil => exact absurd rfl hne
  | cons first rest =>
    have hn : numCols * numRows = rest.length + 1 := by
      rw [Nat.mul_comm, ← hlen, List.length_cons]
    have hH := histogram_eq T (first :: rest) numBins hbins
    unfold histogram binOf at hH
    simp only [lumRange] at hH
    simp only [cdf_cpu, hn, Nat.add_sub_cancel, List.take_length, List.length_cons,
      lt_irrefl, if_false, List.take_succ_cons, hH, hcap, hbins, if_true, lumRange]
    rw [scanLoop_eq]
    · simp only [List.length_set, hcap]
      congr 2
      apply List.map_congr_left
      intro i hi
      have hi2 : i < numBins := List.mem_range.mp hi
      have hi3 : i < 1 + (numBins - 1) := by omega
      rw [if_pos hi3]
      have hs := sum_take_histo (binOf T (first :: rest) numBins) (first :: rest) numBins i hi2.le
      simp only [Nat.zero_add] at hs
      exact hs
    · exact le_refl 1
    · rw [List.length_set, hcap]; omega
    · intro j hj
      have hj0 : j = 0 := by omega
      subst hj0
      rw [getD_set, if_pos ⟨rfl, by omega⟩]
      simp

/-- The range of a buffer is determined by its elements: any lower bound that
is an element is the minimum Step 1 finds, and likewise for the maximum. -/
theorem lumRange_unique (buf : List ℚ) (lo hi : ℚ) (hlo : lo ∈ buf) (hhi : hi ∈ buf)
    (hb : ∀ x ∈ buf, lo ≤ x ∧ x ≤ hi) : lumRange buf = (lo, hi) := by
  have hne : buf ≠ [] := List.ne_nil_of_mem hlo
  obtain ⟨h1, h2, h3⟩ := lumRange_spec buf hne
  apply Prod.ext
  · exact le_antisymm (h1 lo hlo).1 (hb _ h2).1
  · exact le_antisymm (hb _ h3).2 (h1 hi hhi).2

theorem castUInt_of_fits (T : Target) (v : ℚ)
    (h : 0 ≤ truncate v ∧ truncate v < (UINT_MOD : Int)) :
    castUInt T (some v) = (truncate v).toNat := by
  show (if 0 ≤ truncate v ∧ truncate v < (UINT_MOD : Int) then (truncate v).toNat
    else T.fptoui (some v) % UINT_MOD) = (truncate v).toNat
  rw [if_pos h]

/-- With a non-zero range and a scaled value whose truncation is an
`unsigned int`, the bin does not depend on the target. -/
theorem binIndex_eq_zeroTarget (T : Target) (numBins : Nat) (mn rg x : ℚ) (hrg : rg ≠ 0)
    (hfit : 0 ≤ truncate ((x - mn) / rg * (numBins : ℚ)) ∧
      truncate ((x - mn) / rg * (numBins : ℚ)) < (UINT_MOD : Int)) :
    binIndex T numBins mn rg x = binIndex zeroTarget numBins mn rg x := by
  unfold binIndex scaled
  rw [if_neg hrg, castUInt_of_fits T _ hfit, castUInt_of_fits zeroTarget _ hfit]

theorem countBelow_congr (T T' : Target) (buf : List ℚ) (numBins : Nat)
    (h : ∀ x ∈ buf, binOf T buf numBins x = binOf T' buf numBins x) (i : Nat) :
    countBelow T buf numBins i = countBelow T' buf numBins i := by
  unfold countBelow
  apply List.countP_congr
  intro x hx
  rw [h x hx]

theorem binCount_congr (T T' : Target) (buf : List ℚ) (numBins : Nat)
    (h : ∀ x ∈ buf, binOf T buf numBins x = binOf T' buf numBins x) (j : Nat) :
    binCount T buf numBins j = binCount T' buf numBins j := by
  unfold binCount
  apply List.countP_congr
  intro x hx
  rw [h x hx]

/-- The bins of the buffer `[1, 2, 3, 4]` with two bins are the same on every
target. -/
theorem binOf_scenario (T : Target) :
    ∀ x ∈ ([1, 2, 3, 4] : List ℚ),
      binOf T [1, 2, 3, 4] 2 x = binOf zeroTarget [1, 2, 3, 4] 2 x := by
  have hr : lumRange [1, 2, 3, 4] = (1, 4) := by decide!
  intro x hx
  unfold binOf
  rw [hr]
  simp only [List.mem_cons, List.mem_singleton, List.not_mem_nil, or_false] at hx
  rcases hx with h | h | h | h <;> subst h <;>
    exact binIndex_eq_zeroTarget T 2 _ _ _ (by decide!) (by decide!)

/-! ## The bin index for a non-zero range -/

theorem truncate_eq_floor (v : ℚ) (hv : 0 ≤ v) : truncate v = ⌊v⌋ := by
  unfold truncate
  rw [Int.tdiv_eq_ediv (Rat.num_nonneg.mpr hv) (Int.natCast_nonneg _)]
  exact (Rat.floor_def' v).symm

theorem upperBin_eq (numBins : Nat) (h : 0 < numBins) (hs : numBins ≤ UINT_MOD) :
    upperBin numBins = numBins - 1 := by
  unfold upperBin SIZE_MOD
  unfold UINT_MOD at hs ⊢
  omega

/-! ## Positive affine rescaling of the buffer -/

theorem lumRange_rescale (a c : ℚ) (buf : List ℚ) (ha : 0 < a) (hne : buf ≠ []) :
    lumRange (rescale a c buf) = (a * (lumRange buf).1 + c, a * (lumRange buf).2 + c) := by
  obtain ⟨hb, hmn, hmx⟩ := lumRange_spec buf hne
  apply lumRange_unique
  · exact List.mem_map.mpr ⟨_, hmn, rfl⟩
  · exact List.mem_map.mpr ⟨_, hmx, rfl⟩
  · intro y hy
    obtain ⟨x, hx, rfl⟩ := List.mem_map.mp hy
    have h1 := mul_le_mul_of_nonneg_left (hb x hx).1 ha.le
    have h2 := mul_le_mul_of_nonneg_left (hb x hx).2 ha.le
    constructor <;> linarith

/-- The scaled value, and with it the bin, is the same for `a * x + c` in the
rescaled buffer as for `x` in the original one. -/
theorem binOf_rescale (T : Target) (a c : ℚ) (buf : List ℚ) (numBins : Nat) (x : ℚ)
    (ha : 0 < a) (hne : buf ≠ []) :
    binOf T (rescale a c buf) numBins (a * x + c) = binOf T buf numBins x := by
  unfold binOf binIndex
  rw [lumRange_rescale a c buf ha hne]
  have hs : scaled numBins (a * (lumRange buf).1 + c)
      (a * (lumRange buf).2 + c - (a * (lumRange buf).1 + c)) (a * x + c)
      = scaled numBins (lumRange buf).1 ((lumRange buf).2 - (lumRange buf).1) x := by
    unfold scaled
    by_cases hrg : (lumRange buf).2 - (lumRange buf).1 = 0
    · have hrg' : a * (lumRange buf).2 + c - (a * (lumRange buf).1 + c) = 0 := by
        have : a * (lumRange buf).2 + c - (a * (lumRange buf).1 + c)
            = a * ((lumRange buf).2 - (lumRange buf).1) := by ring
        rw [this, hrg, mul_zero]
      rw [if_pos hrg, if_pos hrg']
    · have hrg' : a * (lumRange buf).2 + c - (a * (lumRange buf).1 + c) ≠ 0 := by
        have : a * (lumRange buf).2 + c - (a * (lumRange buf).1 + c)
            = a * ((lumRange buf).2 - (lumRange buf).1) := by ring
        rw [this]
        exact mul_ne_zero ha.ne' hrg
      rw [if_neg hrg, if_neg hrg']
      have hnum : a * x + c - (a * (lumRange buf).1 + c) = a * (x - (lumRange buf).1) := by
        ring
      have hden : a * (lumRange buf).2 + c - (a * (lumRange buf).1 + c)
          = a * ((lumRange buf).2 - (lumRange buf).1) := by ring
      rw [hnum, hden, mul_div_mul_left _ _ ha.ne']
  rw [hs]

theorem countBelow_rescale (T : Target) (a c : ℚ) (buf : List ℚ) (numBins i : Nat)
    (ha : 0 < a) (hne : buf ≠ []) :
    countBelow T (rescale a c buf) numBins i = countBelow T buf numBins i := by
  unfold countBelow
  conv_lhs => arg 2; unfold rescale
  rw [List.countP_map]
  apply List.countP_congr
  intro x _
  simp only [Function.comp_apply, binOf_rescale T a c buf numBins x ha hne]

/-! ## No wrap-around below `2^32` elements -/

/-- The monitors do report a wrap: an increment of a counter that holds
`2^32 - 1`, and a sum `h_cdf[0] + histo[0]` that reaches `2^32`. -/
theorem monitors_report_wrap :
    histoNoWrap (fun _ => 0) [1] [4294967295] = false ∧
      scanNoWrap [1] 1 1 [4294967295, 0] = false := by
  constructor <;> decide

theorem leF_refl (a : F32) (ha : a ≠ .nan) : F32.le a a = true := by
  cases a <;> simp [F32.le] at ha ⊢

theorem leF_trans (a b c : F32) (hab : F32.le a b = true) (hbc : F32.le b c = true) :
    F32.le a c = true := by
  cases a <;> cases b <;> cases c <;> simp [F32.le] at hab hbc ⊢
  exact le_trans hab hbc

theorem leF_antisymm (a b : F32) (hab : F32.le a b = true) (hba : F32.le b a = true) :
    a = b := by
  cases a <;> cases b <;> simp [F32.le] at hab hba ⊢
  exact le_antisymm hab hba

theorem ne_nan_of_leF (a b : F32) (hab : F32.le a b = true) : a ≠ .nan ∧ b ≠ .nan := by
  cases a <;> cases b <;> simp [F32.le] at hab ⊢

theorem stdMinF_choice (a b : F32) : stdMinF a b = a ∨ stdMinF a b = b := by
  unfold stdMinF
  split
  · exact Or.inr rfl
  · exact Or.inl rfl

theorem stdMaxF_choice (a b : F32) : stdMaxF a b = a ∨ stdMaxF a b = b := by
  unfold stdMaxF
  split
  · exact Or.inr rfl
  · exact Or.inl rfl

theorem stdMinF_le (a b : F32) (ha : a ≠ .nan) (hb : b ≠ .nan) :
    F32.le (stdMinF a b) a = true ∧ F32.le (stdMinF a b) b = true := by
  cases a <;> cases b <;> simp [stdMinF, F32.lt, F32.le] at ha hb ⊢
  rename_i x y
  by_cases h : y < x
  · simp [h, F32.le, h.le]
  · simp [h, F32.le, not_lt.mp h]

theorem le_stdMaxF (a b : F32) (ha : a ≠ .nan) (hb : b ≠ .nan) :
    F32.le a (stdMaxF a b) = true ∧ F32.le b (stdMaxF a b) = true := by
  cases a <;> cases b <;> simp [stdMaxF, F32.lt, F32.le] at ha hb ⊢
  rename_i x y
  by_cases h : x < y
  · simp [h, F32.le, h.le]
  · simp [h, F32.le, not_lt.mp h]

theorem rangeLoopF_fst (xs : List F32) (r : F32 × F32) (hr : r.1 ≠ .nan)
    (hxs : ∀ x ∈ xs, x ≠ .nan) :
    F32.le (rangeLoopF xs r).1 r.1 = true ∧
      (∀ x ∈ xs, F32.le (rangeLoopF xs r).1 x = true) ∧
      ((rangeLoopF xs r).1 = r.1 ∨ (rangeLoopF xs r).1 ∈ xs) := by
  induction xs generalizing r with
  | nil => simp [rangeLoopF, leF_refl r.1 hr]
  | cons y ys ih =>
    have hy : y ≠ .nan := hxs y (List.mem_cons_self _ _)
    have hm := stdMinF_le y r.1 hy hr
    have hmn : stdMinF y r.1 ≠ .nan := (ne_nan_of_leF _ _ hm.1).1
    obtain ⟨h1, h2, h3⟩ := ih (stdMinF y r.1, stdMaxF y r.2) hmn
      (fun x hx => hxs x (List.mem_cons_of_mem _ hx))
    rw [rangeLoopF]
    refine ⟨leF_trans _ _ _ h1 hm.2, ?_, ?_⟩
    · intro x hx
      rcases List.mem_cons.mp hx with rfl | hx
      · exact leF_trans _ _ _ h1 hm.1
      · exact h2 x hx
    · rcases h3 with h | h
      · rcases stdMinF_choice y r.1 with hc | hc
        · right
          rw [h]
          simp only [hc]
          exact List.mem_cons_self _ _
        · left
          rw [h]
          simp only [hc]
      · right
        exact List.mem_cons_of_mem _ h

theorem rangeLoopF_snd (xs : List F32) (r : F32 × F32) (hr : r.2 ≠ .nan)
    (hxs : ∀ x ∈ xs, x ≠ .nan) :
    F32.le r.2 (rangeLoopF xs r).2 = true ∧
      (∀ x ∈ xs, F32.le x (rangeLoopF xs r).2 = true) ∧
      ((rangeLoopF xs r).2 = r.2 ∨ (rangeLoopF xs r).2 ∈ xs) := by
  induction xs generalizing r with
  | nil => simp [rangeLoopF, leF_refl r.2 hr]
  | cons y ys ih =>
    have hy : y ≠ .nan := hxs y (List.mem_cons_self _ _)
    have hm := le_stdMaxF y r.2 hy hr
    have hmn : stdMaxF y r.2 ≠ .nan := (ne_nan_of_leF _ _ hm.1).2
    obtain ⟨h1, h2, h3⟩ := ih (stdMinF y r.1, stdMaxF y r.2) hmn
      (fun x hx => hxs x (List.mem_cons_of_mem _ hx))
    rw [rangeLoopF]
    refine ⟨leF_trans _ _ _ hm.2 h1, ?_, ?_⟩
    · intro x hx
      rcases List.mem_cons.mp hx with rfl | hx
      · exact leF_trans _ _ _ hm.1 h1
      · exact h2 x hx
    · rcases h3 with h | h
      · rcases stdMaxF_choice y r.2 with hc | hc
        · right
          rw [h]
          simp only [hc]
          exact List.mem_cons_self _ _
        · left
          rw [h]
          simp only [hc]
      · right
        exact List.mem_cons_of_mem _ h

theorem rangeLoopF_mem (xs : List F32) (r : F32 × F32) :
    ((rangeLoopF xs r).1 = r.1 ∨ (rangeLoopF xs r).1 ∈ xs) ∧
      ((rangeLoopF xs r).2 = r.2 ∨ (rangeLoopF xs r).2 ∈ xs) := by
  induction xs generalizing r with
  | nil => simp [rangeLoopF]
  | cons y ys ih =>
    obtain ⟨h1, h2⟩ := ih (stdMinF y r.1, stdMaxF y r.2)
    rw [rangeLoopF]
    constructor
    · rcases h1 with h | h
      · rcases stdMinF_choice y r.1 with hc | hc
        · right
          rw [h]
          simp only [hc]
          exact List.mem_cons_self _ _
        · left
          rw [h]
          simp only [hc]
      · right
        exact List.mem_cons_of_mem _ h
    · rcases h2 with h | h
      · rcases stdMaxF_choice y r.2 with hc | hc
        · right
          rw [h]
          simp only [hc]
          exact List.mem_cons_self _ _
        · left
          rw [h]
          simp only [hc]
      · right
        exact List.mem_cons_of_mem _ h

/-- The two values Step 1 leaves are elements of the buffer, whatever the
buffer holds. -/
theorem lumRangeF_mem (buf : List F32) (hne : buf ≠ []) :
    (lumRangeF buf).1 ∈ buf ∧ (lumRangeF buf).2 ∈ buf := by
  cases buf with
  | nil => exact absurd rfl hne
  | cons first rest =>
    obtain ⟨h1, h2⟩ := rangeLoopF_mem rest (first, first)
    constructor
    · rcases h1 with h | h
      · simp only [lumRangeF, h]
        exact List.mem_cons_self _ _
      · exact List.mem_cons_of_mem _ h
    · rcases h2 with h | h
      · simp only [lumRangeF, h]
        exact List.mem_cons_self _ _
      · exact List.mem_cons_of_mem _ h

/-- Step 1 on a non-empty float buffer without NaN: the first component is a
lower bound and an element, the second an upper bound and an element. -/
theorem lumRangeF_spec (buf : List F32) (hne : buf ≠ []) (hnan : ∀ x ∈ buf, x ≠ .nan) :
    (∀ x ∈ buf, F32.le (lumRangeF buf).1 x = true ∧ F32.le x (lumRangeF buf).2 = true) ∧
      (lumRangeF buf).1 ∈ buf ∧ (lumRangeF buf).2 ∈ buf := by
  cases buf with
  | nil => exact absurd rfl hne
  | cons first rest =>
    have hf : first ≠ .nan := hnan first (List.mem_cons_self _ _)
    have hrest : ∀ x ∈ rest, x ≠ .nan := fun x hx => hnan x (List.mem_cons_of_mem _ hx)
    obtain ⟨l1, l2, l3⟩ := rangeLoopF_fst rest (first, first) hf hrest
    obtain ⟨u1, u2, u3⟩ := rangeLoopF_snd rest (first, first) hf hrest
    refine ⟨?_, ?_, ?_⟩
    · intro x hx
      rcases List.mem_cons.mp hx with rfl | hx
      · exact ⟨l1, u1⟩
      · exact ⟨l2 x hx, u2 x hx⟩
    · rcases l3 with h | h
      · simp only [lumRangeF, h]
        exact List.mem_cons_self _ _
      · exact List.mem_cons_of_mem _ h
    · rcases u3 with h | h
      · simp only [lumRangeF, h]
        exact List.mem_cons_self _ _
      · exact List.mem_cons_of_mem _ h

/-- The range of a float buffer without NaN is determined by its elements. -/
theorem lumRangeF_unique (buf : List F32) (lo hi : F32) (hnan : ∀ x ∈ buf, x ≠ .nan)
    (hlo : lo ∈ buf) (hhi : hi ∈ buf)
    (hb : ∀ x ∈ buf, F32.le lo x = true ∧ F32.le x hi = true) : lumRangeF buf = (lo, hi) := by
  have hne : buf ≠ [] := List.ne_nil_of_mem hlo
  obtain ⟨h1, h2, h3⟩ := lumRangeF_spec buf hne hnan
  apply Prod.ext
  · exact leF_antisymm _ _ (h1 lo hlo).1 (hb _ h2).1
  · exact leF_antisymm _ _ (hb _ h3).2 (h1 hi hhi).2

theorem lumRangeF_perm (buf buf' : List F32) (hperm : buf'.Perm buf) (hne : buf ≠ [])
    (hnan : ∀ x ∈ buf, x ≠ .nan) : lumRangeF buf' = lumRangeF buf := by
  obtain ⟨h1, h2, h3⟩ := lumRangeF_spec buf hne hnan
  apply lumRangeF_unique
  · exact fun x hx => hnan x (hperm.mem_iff.mp hx)
  · exact hperm.mem_iff.mpr h2
  · exact hperm.mem_iff.mpr h3
  · intro x hx
    exact h1 x (hperm.mem_iff.mp hx)

/-! ## The run on floats in closed form -/

theorem binIndexF_lt (C : Conv) (numBins : Nat) (mn rg x : F32) (h : 0 < numBins) :
    binIndexF C numBins mn rg x < numBins :=
  lt_of_le_of_lt (stdMin_le_left _ _) (upperBin_lt numBins h)

theorem binOfF_lt (C : Conv) (buf : List F32) (numBins : Nat) (x : F32) (h : 0 < numBins) :
    binOfF C buf numBins x < numBins :=
  binIndexF_lt C numBins _ _ x h

/-- The scratch histogram of the float run after Step 3: entry `j` is the
number of elements with bin `j`, modulo `2^32`. -/
theorem histogramF_eq (C : Conv) (buf : List F32) (numBins : Nat) (h : 0 < numBins) :
    histogramF C buf numBins
      = some ((List.range numBins).map (fun j => binCountF C buf numBins j % UINT_MOD)) := by
  unfold histogramF
  rw [histoLoop_eq]
  · simp only [List.length_replicate, binCountF]
    congr 1
    apply List.map_congr_left
    intro j hj
    have hj2 : j < numBins := List.mem_range.mp hj
    simp [List.getD_eq_getElem?_getD, List.getElem?_replicate, hj2]
  · intro x _
    rw [List.length_replicate]
    exact binOfF_lt C buf numBins x h
  · intro j
    simp only [List.getD_eq_getElem?_getD, List.getElem?_replicate]
    split <;> simp [UINT_MOD]

/-- On a non-empty float buffer of `numRows * numCols` elements the scratch
array of the run is `histogramF C buf numBins`, computed with the bins
`binOfF`, and the range is `lumRangeF buf`. -/
theorem cdf_cpuF_uses_histogram (C : Conv) (buf : List F32) (h_cdf : List Nat)
    (numRows numCols numBins : Nat) (a b : F32)
    (hne : buf ≠ []) (hlen : buf.length = numRows * numCols) :
    cdf_cpuF C buf h_cdf numRows numCols numBins a b
      = match histogramF C buf numBins with
        | none => .undefined ⟨(lumRangeF buf).1, (lumRangeF buf).2, h_cdf⟩
        | some histo =>
          if 0 < h_cdf.length then
            match scanLoop histo (numBins - 1) 1 (h_cdf.set 0 0) with
            | .ok cdf => .returned ⟨(lumRangeF buf).1, (lumRangeF buf).2, cdf⟩
            | .error cdf => .undefined ⟨(lumRangeF buf).1, (lumRangeF buf).2, cdf⟩
          else .undefined ⟨(lumRangeF buf).1, (lumRangeF buf).2, h_cdf⟩ := by
  cases buf with
  | nil => exact absurd rfl hne
  | cons first rest =>
    have hn : numCols * numRows = rest.length + 1 := by
      rw [Nat.mul_comm, ← hlen, List.length_cons]
    simp only [cdf_cpuF, hn, Nat.add_sub_cancel, List.take_length, List.length_cons,
      lt_irrefl, if_false, List.take_succ_cons, lumRangeF, histogramF]
    rfl

/-- The closed form of the float run for an output array of at least `numBins`
entries: the range of the buffer, in entry `i < numBins` the number of
elements with a bin below `i`, modulo `2^32`, and the entries from `numBins`
on with their initial content. -/
theorem cdf_cpuF_eq_cap (C : Conv) (buf : List F32) (h_cdf : List Nat)
    (numRows numCols numBins : Nat) (a b : F32)
    (hne : buf ≠ []) (hlen : buf.length = numRows * numCols)
    (hbins : 0 < numBins) (hcap : numBins ≤ h_cdf.length) :
    cdf_cpuF C buf h_cdf numRows numCols numBins a b
      = .returned ⟨(lumRangeF buf).1, (lumRangeF buf).2,
          (List.range h_cdf.length).map (fun i =>
            if i < numBins then countBelowF C buf numBins i % UINT_MOD
            else h_cdf.getD i 0)⟩ := by
  have hpos : 0 < h_cdf.length := by omega
  rw [cdf_cpuF_uses_histogram C buf h_cdf numRows numCols numBins a b hne hlen,
    histogramF_eq C buf numBins hbins]
  simp only [hpos, if_true]
  rw [scanLoop_eq]
  · simp only [List.length_set]
    have hmap : (List.range h_cdf.length).map (fun j =>
          if j < 1 + (numBins - 1) then
            (((List.range numBins).map
              (fun j => binCountF C buf numBins j % UINT_MOD)).take j).sum % UINT_MOD
          else (h_cdf.set 0 0).getD j 0)
        = (List.range h_cdf.length).map (fun i =>
            if i < numBins then countBelowF C buf numBins i % UINT_MOD
            else h_cdf.getD i 0) := by
      apply List.map_congr_left
      intro i _
      by_cases hi : i < numBins
      · have hi3 : i < 1 + (numBins - 1) := by omega
        rw [if_pos hi3, if_pos hi]
        have hs := sum_take_histo (binOfF C buf numBins) buf numBins i hi.le
        simp only [Nat.zero_add] at hs
        exact hs
      · have hi3 : ¬ i < 1 + (numBins - 1) := by omega
        have hne0 : ¬ (0 = i ∧ 0 < h_cdf.length) := by omega
        rw [if_neg hi3, if_neg hi, getD_set, if_neg hne0]
    rw [hmap]
  · exact le_refl 1
  · rw [List.length_set]; omega
  · intro j hj
    have hj0 : j = 0 := by omega
    subst hj0
    rw [getD_set, if_pos ⟨rfl, hpos⟩]
    simp

/-- The closed form of the float run for an output array of `numBins`
entries. -/
theorem cdf_cpuF_eq (C : Conv) (buf : List F32) (h_cdf : List Nat)
    (numRows numCols numBins : Nat) (a b : F32)
    (hne : buf ≠ []) (hlen : buf.length = numRows * numCols)
    (hbins : 0 < numBins) (hcap : h_cdf.length = numBins) :
    cdf_cpuF C buf h_cdf numRows numCols numBins a b
      = .returned ⟨(lumRangeF buf).1, (lumRangeF buf).2,
          (List.range numBins).map (fun i => countBelowF C buf numBins i % UINT_MOD)⟩ := by
  rw [cdf_cpuF_eq_cap C buf h_cdf numRows numCols numBins a b hne hlen hbins hcap.ge, hcap]
  have hmap : (List.range numBins).map (fun i =>
        if i < numBins then countBelowF C buf numBins i % UINT_MOD else h_cdf.getD i 0)
      = (List.range numBins).map (fun i => countBelowF C buf numBins i % UINT_MOD) := by
    apply List.map_congr_left
    intro i hi
    rw [if_pos (List.mem_range.mp hi)]
  rw [hmap]

/-- The output scalars where the embedding of a float run on a non-empty
buffer of `numRows * numCols` elements ends, whatever `numBins` and the output
array are. -/
theorem cdf_cpuF_outputs_range (C : Conv) (buf : List F32) (h_cdf : List Nat)
    (numRows numCols numBins : Nat) (a b : F32)
    (hne : buf ≠ []) (hlen : buf.length = numRows * numCols) :
    (cdf_cpuF C buf h_cdf numRows numCols numBins a b).outputs.logLumMin
        = (lumRangeF buf).1 ∧
      (cdf_cpuF C buf h_cdf numRows numCols numBins a b).outputs.logLumMax
        = (lumRangeF buf).2 := by
  rw [cdf_cpuF_uses_histogram C buf h_cdf numRows numCols numBins a b hne hlen]
  split
  · exact ⟨rfl, rfl⟩
  · split
    · split <;> exact ⟨rfl, rfl⟩
    · exact ⟨rfl, rfl⟩

theorem countBelowF_perm (C : Conv) (buf buf' : List F32) (numBins i : Nat)
    (hperm : buf'.Perm buf) (hne : buf ≠ []) (hnan : ∀ x ∈ buf, x ≠ .nan) :
    countBelowF C buf' numBins i = countBelowF C buf numBins i := by
  unfold countBelowF binOfF lumSpanF
  rw [lumRangeF_perm buf buf' hperm hne hnan]
  exact hperm.countP_eq _

/-! ## Rounding to binary32 -/

theorem bitLen_zero (fuel : Nat) : bitLen fuel 0 = 0 := by
  cases fuel <;> simp [bitLen]

theorem bitLen_spec (fuel n : Nat) (hn : 0 < n) (hf : n ≤ fuel) :
    2 ^ (bitLen fuel n - 1) ≤ n ∧ n < 2 ^ bitLen fuel n := by
  induction fuel generalizing n with
  | zero => omega
  | succ fuel ih =>
    have hn0 : n ≠ 0 := by omega
    simp only [bitLen, hn0, if_false, Nat.add_sub_cancel]
    by_cases h2 : n / 2 = 0
    · rw [h2, bitLen_zero]
      have : n = 1 := by omega
      subst this
      simp
    · have hpos : 0 < n / 2 := Nat.pos_of_ne_zero h2
      have hle : n / 2 ≤ fuel := by omega
      obtain ⟨h1, h3⟩ := ih (n / 2) hpos hle
      have hb : 1 ≤ bitLen fuel (n / 2) := by
        by_contra hc
        have : bitLen fuel (n / 2) = 0 := by omega
        rw [this] at h3
        simp at h3
        omega
      have e1 : 2 ^ bitLen fuel (n / 2) = 2 * 2 ^ (bitLen fuel (n / 2) - 1) := by
        rw [← pow_succ']
        congr 1
        omega
      constructor
      · rw [e1]; omega
      · rw [pow_succ]; omega

theorem pow2_eq (k : Int) : pow2 k = (2 : ℚ) ^ k := by
  unfold pow2
  split
  · rename_i h
    have hk : ((k.toNat : Int)) = k := Int.toNat_of_nonneg h
    conv_rhs => rw [← hk]
    rw [zpow_natCast]
    push_cast
    rfl
  · rename_i h
    have h2 : 0 ≤ -k := by omega
    have hk : (((-k).toNat : Int)) = -k := Int.toNat_of_nonneg h2
    have hk2 : k = -(((-k).toNat : Int)) := by omega
    conv_rhs => rw [hk2]
    rw [zpow_neg, zpow_natCast]
    push_cast
    rw [one_div]

theorem pow2_pos (k : Int) : 0 < pow2 k := by
  rw [pow2_eq]
  positivity

theorem pow2_add (a b : Int) : pow2 (a + b) = pow2 a * pow2 b := by
  rw [pow2_eq, pow2_eq, pow2_eq, zpow_add₀ (by norm_num : (2 : ℚ) ≠ 0)]

theorem pow2_le (a b : Int) (h : a ≤ b) : pow2 a ≤ pow2 b := by
  rw [pow2_eq, pow2_eq]
  exact zpow_le_zpow_right₀ (by norm_num) h

theorem pow2_lt_iff (a b : Int) : pow2 a < pow2 b ↔ a < b := by
  rw [pow2_eq, pow2_eq]
  exact zpow_lt_zpow_iff_right₀ (by norm_num)

theorem pow2_natCast (n : Nat) : pow2 (n : Int) = ((2 ^ n : Nat) : ℚ) := by
  rw [pow2_eq, zpow_natCast]
  push_cast
  rfl

theorem bitLen_pos (n : Nat) (hn : 0 < n) : 1 ≤ bitLen n n := by
  obtain ⟨_, h2⟩ := bitLen_spec n n hn (le_refl _)
  by_contra hc
  have h0 : bitLen n n = 0 := by omega
  rw [h0, pow_zero] at h2
  omega

theorem expOf_spec (a : ℚ) (ha : 0 < a) : pow2 (expOf a) ≤ a ∧ a < pow2 (expOf a + 1) := by
  have hnum : 0 < a.num := Rat.num_pos.mpr ha
  have hp : 0 < a.num.natAbs := Int.natAbs_pos.mpr hnum.ne'
  have hd : 0 < a.den := a.den_pos
  obtain ⟨p1, p2⟩ := bitLen_spec a.num.natAbs a.num.natAbs hp (le_refl _)
  obtain ⟨d1, d2⟩ := bitLen_spec a.den a.den hd (le_refl _)
  have hbp : 1 ≤ bitLen a.num.natAbs a.num.natAbs := bitLen_pos _ hp
  have hbd : 1 ≤ bitLen a.den a.den := bitLen_pos _ hd
  generalize hP : bitLen a.num.natAbs a.num.natAbs = bp at *
  generalize hD : bitLen a.den a.den = bd at *
  have hdq : (0 : ℚ) < (a.den : ℚ) := by exact_mod_cast hd
  have hpa : ((a.num.natAbs : Nat) : ℚ) = a * (a.den : ℚ) := by
    have h1 : ((a.num.natAbs : Nat) : Int) = a.num := Int.natAbs_of_nonneg hnum.le
    have h2 : ((a.num.natAbs : Nat) : ℚ) = (a.num : ℚ) := by
      rw [← Int.cast_natCast, h1]
    rw [h2]
    exact (Rat.mul_den_eq_num a).symm
  -- bounds on numerator and denominator, in ℚ
  have P1 : pow2 ((bp : Int) - 1) ≤ a * (a.den : ℚ) := by
    rw [← hpa]
    have : ((bp : Int) - 1) = ((bp - 1 : Nat) : Int) := by omega
    rw [this, pow2_natCast]
    exact_mod_cast p1
  have P2 : a * (a.den : ℚ) < pow2 (bp : Int) := by
    rw [← hpa, pow2_natCast]
    exact_mod_cast p2
  have D1 : pow2 ((bd : Int) - 1) ≤ (a.den : ℚ) := by
    have : ((bd : Int) - 1) = ((bd - 1 : Nat) : Int) := by omega
    rw [this, pow2_natCast]
    exact_mod_cast d1
  have D2 : (a.den : ℚ) < pow2 (bd : Int) := by
    rw [pow2_natCast]
    exact_mod_cast d2
  -- a lies strictly between 2^(c-1) and 2^(c+1)
  have lo : pow2 ((bp : Int) - (bd : Int) - 1) ≤ a := by
    have e : pow2 ((bp : Int) - 1) = pow2 ((bp : Int) - (bd : Int) - 1) * pow2 (bd : Int) := by
      rw [← pow2_add]
      congr 1
      ring
    have h1 : pow2 ((bp : Int) - (bd : Int) - 1) * (a.den : ℚ) ≤ a * (a.den : ℚ) := by
      calc pow2 ((bp : Int) - (bd : Int) - 1) * (a.den : ℚ)
          ≤ pow2 ((bp : Int) - (bd : Int) - 1) * pow2 (bd : Int) :=
            mul_le_mul_of_nonneg_left D2.le (pow2_pos _).le
        _ = pow2 ((bp : Int) - 1) := e.symm
        _ ≤ a * (a.den : ℚ) := P1
    exact le_of_mul_le_mul_right h1 hdq
  have hi : a < pow2 ((bp : Int) - (bd : Int) + 1) := by
    have e : pow2 (bp : Int) = pow2 ((bp : Int) - (bd : Int) + 1) * pow2 ((bd : Int) - 1) := by
      rw [← pow2_add]
      congr 1
      ring
    have h1 : a * (a.den : ℚ) < pow2 ((bp : Int) - (bd : Int) + 1) * (a.den : ℚ) := by
      calc a * (a.den : ℚ) < pow2 (bp : Int) := P2
        _ = pow2 ((bp : Int) - (bd : Int) + 1) * pow2 ((bd : Int) - 1) := e
        _ ≤ pow2 ((bp : Int) - (bd : Int) + 1) * (a.den : ℚ) :=
            mul_le_mul_of_nonneg_left D1 (pow2_pos _).le
    exact lt_of_mul_lt_mul_right h1 hdq.le
  unfold expOf
  rw [hP, hD]
  split
  · rename_i h
    exact ⟨h, hi⟩
  · rename_i h
    refine ⟨lo, ?_⟩
    have : (bp : Int) - (bd : Int) - 1 + 1 = (bp : Int) - (bd : Int) := by ring
    rw [this]
    exact not_le.mp h

theorem expOf_mono (a b : ℚ) (ha : 0 < a) (hab : a ≤ b) : expOf a ≤ expOf b := by
  obtain ⟨s1, _⟩ := expOf_spec a ha
  obtain ⟨_, t2⟩ := expOf_spec b (lt_of_lt_of_le ha hab)
  have l1 : expOf a < expOf b + 1 :=
    (pow2_lt_iff _ _).mp (lt_of_le_of_lt s1 (lt_of_le_of_lt hab t2))
  omega

theorem roundHalfEven_intCast (n : Int) : roundHalfEven (n : ℚ) = n := by
  simp [roundHalfEven]

theorem floor_le_roundHalfEven (x : ℚ) : ⌊x⌋ ≤ roundHalfEven x := by
  unfold roundHalfEven
  split
  · exact le_refl _
  · split
    · omega
    · split <;> omega

theorem roundHalfEven_le_floor_succ (x : ℚ) : roundHalfEven x ≤ ⌊x⌋ + 1 := by
  unfold roundHalfEven
  split
  · omega
  · split
    · omega
    · split <;> omega

theorem roundHalfEven_mono (x y : ℚ) (h : x ≤ y) : roundHalfEven x ≤ roundHalfEven y := by
  have hf : ⌊x⌋ ≤ ⌊y⌋ := Int.floor_mono h
  rcases hf.lt_or_eq with hlt | heq
  · calc roundHalfEven x ≤ ⌊x⌋ + 1 := roundHalfEven_le_floor_succ x
      _ ≤ ⌊y⌋ := hlt
      _ ≤ roundHalfEven y := floor_le_roundHalfEven y
  · have hfr : x - ⌊x⌋ ≤ y - ⌊y⌋ := by
      rw [heq]
      linarith
    unfold roundHalfEven
    rw [heq]
    by_cases h1 : x - (⌊y⌋ : ℚ) < 1 / 2
    · rw [if_pos h1]
      have := floor_le_roundHalfEven y
      unfold roundHalfEven at this
      exact this
    · rw [if_neg h1]
      by_cases h2 : 1 / 2 < x - (⌊y⌋ : ℚ)
      · have h3 : ¬ (y - (⌊y⌋ : ℚ) < 1 / 2) := by linarith
        have h4 : 1 / 2 < y - (⌊y⌋ : ℚ) := by linarith
        rw [if_pos h2, if_neg h3, if_pos h4]
      · rw [if_neg h2]
        have h3 : ¬ (y - (⌊y⌋ : ℚ) < 1 / 2) := by linarith
        rw [if_neg h3]
        by_cases h4 : 1 / 2 < y - (⌊y⌋ : ℚ)
        · rw [if_pos h4]
          split <;> omega
        · rw [if_neg h4]

theorem roundHalfEven_le_of_le (x : ℚ) (n : Int) (h : x ≤ (n : ℚ)) : roundHalfEven x ≤ n := by
  have := roundHalfEven_mono x n h
  rwa [roundHalfEven_intCast] at this

theorem le_roundHalfEven_of_le (x : ℚ) (n : Int) (h : (n : ℚ) ≤ x) : n ≤ roundHalfEven x := by
  have := roundHalfEven_mono n x h
  rwa [roundHalfEven_intCast] at this

theorem pow2_intCast (k : Int) (hk : 0 ≤ k) : pow2 k = (((2 : Int) ^ k.toNat : Int) : ℚ) := by
  have h : ((k.toNat : Int)) = k := Int.toNat_of_nonneg hk
  conv_lhs => rw [← h]
  rw [pow2_natCast]
  push_cast
  rfl

theorem quantExp_mono (a b : ℚ) (ha : 0 < a) (hab : a ≤ b) : quantExp a ≤ quantExp b := by
  have := expOf_mono a b ha hab
  unfold quantExp
  omega

theorem roundPos_le_pow2 (a : ℚ) (e : Int) (h : a ≤ pow2 e) (hk : quantExp a ≤ e) :
    roundPos a ≤ pow2 e := by
  have hsplit : pow2 e = pow2 (e - quantExp a) * pow2 (quantExp a) := by
    rw [← pow2_add]
    congr 1
    ring
  have hq : a / pow2 (quantExp a) ≤ pow2 (e - quantExp a) := by
    rw [div_le_iff₀ (pow2_pos _), ← hsplit]
    exact h
  rw [pow2_intCast _ (by omega : 0 ≤ e - quantExp a)] at hq
  have hr := roundHalfEven_le_of_le _ _ hq
  have hr2 : (roundHalfEven (a / pow2 (quantExp a)) : ℚ)
      ≤ (((2 : Int) ^ (e - quantExp a).toNat : Int) : ℚ) := by exact_mod_cast hr
  unfold roundPos
  rw [hsplit, pow2_intCast (e - quantExp a) (by omega)]
  exact mul_le_mul_of_nonneg_right hr2 (pow2_pos _).le

theorem pow2_le_roundPos (a : ℚ) (e : Int) (h : pow2 e ≤ a) (hk : quantExp a ≤ e) :
    pow2 e ≤ roundPos a := by
  have hsplit : pow2 e = pow2 (e - quantExp a) * pow2 (quantExp a) := by
    rw [← pow2_add]
    congr 1
    ring
  have hq : pow2 (e - quantExp a) ≤ a / pow2 (quantExp a) := by
    rw [le_div_iff₀ (pow2_pos _), ← hsplit]
    exact h
  rw [pow2_intCast _ (by omega : 0 ≤ e - quantExp a)] at hq
  have hr := le_roundHalfEven_of_le _ _ hq
  have hr2 : (((2 : Int) ^ (e - quantExp a).toNat : Int) : ℚ)
      ≤ (roundHalfEven (a / pow2 (quantExp a)) : ℚ) := by exact_mod_cast hr
  unfold roundPos
  rw [hsplit, pow2_intCast (e - quantExp a) (by omega)]
  exact mul_le_mul_of_nonneg_right hr2 (pow2_pos _).le

theorem roundPos_nonneg (a : ℚ) (ha : 0 ≤ a) : 0 ≤ roundPos a := by
  unfold roundPos
  have h0 : ((0 : Int) : ℚ) ≤ a / pow2 (quantExp a) := by
    rw [Int.cast_zero]
    exact div_nonneg ha (pow2_pos _).le
  have hr := le_roundHalfEven_of_le _ _ h0
  have hr2 : (0 : ℚ) ≤ (roundHalfEven (a / pow2 (quantExp a)) : ℚ) := by exact_mod_cast hr
  exact mul_nonneg hr2 (pow2_pos _).le

/-- Rounding is monotone on the positive rationals. -/
theorem roundPos_mono (a b : ℚ) (ha : 0 < a) (hab : a ≤ b) : roundPos a ≤ roundPos b := by
  have hb : 0 < b := lt_of_lt_of_le ha hab
  have hk := quantExp_mono a b ha hab
  rcases hk.lt_or_eq with hlt | heq
  · obtain ⟨_, a2⟩ := expOf_spec a ha
    obtain ⟨b1, _⟩ := expOf_spec b hb
    have hka : expOf a - 23 ≤ quantExp a := le_max_left _ _
    have hka2 : (-149 : Int) ≤ quantExp a := le_max_right _ _
    have hkb : quantExp b = expOf b - 23 := by
      unfold quantExp at hlt hka2 ⊢
      omega
    have hab2 : a ≤ pow2 (expOf b) :=
      le_trans a2.le (pow2_le _ _ (by omega))
    calc roundPos a ≤ pow2 (expOf b) := roundPos_le_pow2 a _ hab2 (by omega)
      _ ≤ roundPos b := pow2_le_roundPos b _ b1 (by omega)
  · unfold roundPos
    rw [heq]
    have hq : a / pow2 (quantExp b) ≤ b / pow2 (quantExp b) :=
      div_le_div_of_nonneg_right hab (pow2_pos _).le
    have hr := roundHalfEven_mono _ _ hq
    have hr2 : (roundHalfEven (a / pow2 (quantExp b)) : ℚ)
        ≤ (roundHalfEven (b / pow2 (quantExp b)) : ℚ) := by exact_mod_cast hr
    exact mul_le_mul_of_nonneg_right hr2 (pow2_pos _).le

/-- Rounding to binary32 is monotone on the non-negative rationals: below a
value with a finite rounding, the rounding is finite, non-negative and not
above. -/
theorem round32_mono (a b rb : ℚ) (ha : 0 ≤ a) (hab : a ≤ b) (hb : round32 b = .fin rb) :
    ∃ ra, round32 a = .fin ra ∧ 0 ≤ ra ∧ ra ≤ rb := by
  have hb0 : 0 ≤ b := le_trans ha hab
  have hrb : rb = (if b = 0 then 0 else roundPos b) ∧ (b ≠ 0 → ¬ pow2 128 ≤ roundPos b) := by
    unfold round32 at hb
    by_cases h0 : b = 0
    · rw [if_pos h0] at hb
      simp only [F32.fin.injEq] at hb
      simp [h0, hb.symm]
    · have hpos : 0 < b := lt_of_le_of_ne hb0 (Ne.symm h0)
      rw [if_neg h0, if_pos hpos] at hb
      by_cases h1 : pow2 128 ≤ roundPos b
      · rw [if_pos h1] at hb
        exact absurd hb (by simp)
      · rw [if_neg h1] at hb
        simp only [F32.fin.injEq] at hb
        simp [h0, hb.symm, h1]
  by_cases ha0 : a = 0
  · refine ⟨0, by simp [round32, ha0], le_refl _, ?_⟩
    rw [hrb.1]
    split
    · exact le_refl _
    · exact roundPos_nonneg b hb0
  · have hapos : 0 < a := lt_of_le_of_ne ha (Ne.symm ha0)
    have hbpos : 0 < b := lt_of_lt_of_le hapos hab
    have hm := roundPos_mono a b hapos hab
    have hnb := hrb.2 hbpos.ne'
    have hna : ¬ pow2 128 ≤ roundPos a := fun h => hnb (le_trans h hm)
    refine ⟨roundPos a, ?_, roundPos_nonneg a ha, ?_⟩
    · unfold round32
      rw [if_neg ha0, if_pos hapos, if_neg hna]
    · rw [hrb.1, if_neg hbpos.ne']
      exact hm

theorem roundPos_exact_lt (m k : Int) (hm : 0 < m) (hm2 : m < 2 ^ 24) (hk : -149 ≤ k) :
    roundPos ((m : ℚ) * pow2 k) = (m : ℚ) * pow2 k := by
  have hmq : (0 : ℚ) < (m : ℚ) := by exact_mod_cast hm
  have ha : 0 < (m : ℚ) * pow2 k := mul_pos hmq (pow2_pos k)
  obtain ⟨s1, _⟩ := expOf_spec _ ha
  have hlt : (m : ℚ) * pow2 k < pow2 (k + 24) := by
    rw [Int.add_comm, pow2_add]
    apply mul_lt_mul_of_pos_right _ (pow2_pos k)
    rw [pow2_intCast 24 (by norm_num)]
    exact_mod_cast hm2
  have he : expOf ((m : ℚ) * pow2 k) < k + 24 :=
    (pow2_lt_iff _ _).mp (lt_of_le_of_lt s1 hlt)
  have hq : quantExp ((m : ℚ) * pow2 k) ≤ k := by
    unfold quantExp
    omega
  unfold roundPos
  generalize quantExp ((m : ℚ) * pow2 k) = k' at hq
  have hsplit : pow2 k = pow2 (k - k') * pow2 k' := by
    rw [← pow2_add]
    congr 1
    ring
  have hdiv : (m : ℚ) * pow2 k / pow2 k' = ((m * (2 : Int) ^ (k - k').toNat : Int) : ℚ) := by
    rw [hsplit, ← mul_assoc, mul_div_assoc, div_self (pow2_pos k').ne', mul_one,
      pow2_intCast (k - k') (by omega)]
    push_cast
    rfl
  rw [hdiv, roundHalfEven_intCast, hsplit, pow2_intCast (k - k') (by omega)]
  push_cast
  ring

/-- A value `m * 2^k` with `0 < m ≤ 2^24` and `k ≥ -149` is its own rounding. -/
theorem roundPos_exact (m k : Int) (hm : 0 < m) (hm2 : m ≤ 2 ^ 24) (hk : -149 ≤ k) :
    roundPos ((m : ℚ) * pow2 k) = (m : ℚ) * pow2 k := by
  rcases hm2.lt_or_eq with h | h
  · exact roundPos_exact_lt m k hm h hk
  · have e : (m : ℚ) * pow2 k = (((2 : Int) ^ 23 : Int) : ℚ) * pow2 (k + 1) := by
      rw [h, pow2_add]
      have : pow2 1 = 2 := by decide!
      rw [this]
      push_cast
      ring
    rw [e]
    exact roundPos_exact_lt _ _ (by norm_num) (by norm_num) (by omega)

/-- The rounding of a non-negative rational is `m * 2^k` with `0 ≤ m ≤ 2^24`
and `k ≥ -149`. -/
theorem roundPos_form (a : ℚ) (ha : 0 < a) :
    ∃ m k : Int, roundPos a = (m : ℚ) * pow2 k ∧ 0 ≤ m ∧ m ≤ 2 ^ 24 ∧ -149 ≤ k := by
  refine ⟨roundHalfEven (a / pow2 (quantExp a)), quantExp a, rfl, ?_, ?_, le_max_right _ _⟩
  · apply le_roundHalfEven_of_le
    rw [Int.cast_zero]
    exact div_nonneg ha.le (pow2_pos _).le
  · obtain ⟨_, s2⟩ := expOf_spec a ha
    have hk : expOf a - 23 ≤ quantExp a := le_max_left _ _
    have h24 : pow2 24 = (((2 : Int) ^ 24 : Int) : ℚ) := by decide!
    apply roundHalfEven_le_of_le
    rw [← h24, div_le_iff₀ (pow2_pos _), ← pow2_add]
    exact le_trans s2.le (pow2_le _ _ (by omega))

theorem roundPos_idem (a : ℚ) (ha : 0 < a) : roundPos a = 0 ∨ roundPos (roundPos a) = roundPos a := by
  obtain ⟨m, k, hr, hm0, hm, hk⟩ := roundPos_form a ha
  rcases hm0.lt_or_eq with h | h
  · right
    rw [hr]
    exact roundPos_exact m k h hm hk
  · left
    rw [hr, ← h]
    simp

/-- Rounding to binary32 is idempotent: a finite result is a binary32 value. -/
theorem round32_idem (q r : ℚ) (h : round32 q = .fin r) : round32 r = .fin r := by
  unfold round32 at h
  by_cases h0 : q = 0
  · rw [if_pos h0] at h
    simp only [F32.fin.injEq] at h
    rw [← h]
    simp [round32]
  · rw [if_neg h0] at h
    by_cases hpos : 0 < q
    · rw [if_pos hpos] at h
      by_cases h1 : pow2 128 ≤ roundPos q
      · rw [if_pos h1] at h
        exact absurd h (by simp)
      · rw [if_neg h1] at h
        simp only [F32.fin.injEq] at h
        rcases roundPos_idem q hpos with hz | hi
        · rw [← h, hz]
          simp [round32]
        · rcases (roundPos_nonneg q hpos.le).lt_or_eq with h2 | h2
          · rw [← h]
            unfold round32
            rw [if_neg h2.ne', if_pos h2, hi, if_neg h1]
          · rw [← h, ← h2]
            simp [round32]
    · rw [if_neg hpos] at h
      have hneg : 0 < -q := by
        have : q < 0 := lt_of_le_of_ne (not_lt.mp hpos) h0
        linarith
      by_cases h1 : pow2 128 ≤ roundPos (-q)
      · rw [if_pos h1] at h
        exact absurd h (by simp)
      · rw [if_neg h1] at h
        simp only [F32.fin.injEq] at h
        rcases roundPos_idem (-q) hneg with hz | hi
        · rw [← h, hz]
          simp [round32]
        · rcases (roundPos_nonneg (-q) hneg.le).lt_or_eq with h2 | h2
          · have hr0 : r ≠ 0 := by
              rw [← h]
              linarith
            have hrn : ¬ 0 < r := by
              rw [← h]
              linarith
            unfold round32
            rw [if_neg hr0, if_neg hrn, ← h, neg_neg, hi, if_neg h1]
          · rw [← h, ← h2]
            simp [round32]

/-! ## The scaled value in binary32 -/

theorem round32_zero : round32 0 = .fin 0 := by
  simp [round32]

theorem round32_one : round32 1 = .fin 1 := by decide!

/-- The conversion of a `size_t` to float is finite. -/
theorem ofNat_size_finite (numBins : Nat) :
    ∃ n, F32.ofNat (numBins % SIZE_MOD) = .fin n ∧ 0 ≤ n := by
  have hb : round32 18446744073709551616 = .fin 18446744073709551616 := by decide!
  have hle : ((numBins % SIZE_MOD : Nat) : ℚ) ≤ 18446744073709551616 := by
    have : numBins % SIZE_MOD < 18446744073709551616 := Nat.mod_lt _ (by decide)
    exact_mod_cast this.le
  obtain ⟨n, h1, h2, _⟩ := round32_mono _ _ _ (Nat.cast_nonneg _) hle hb
  exact ⟨n, h1, h2⟩

/-- Below `2^32 - 128` the conversion of `numBins` to float is below `2^32`:
it is at most `2^32 - 256`. -/
theorem ofNat_lt_uint (numBins : Nat) (h : numBins < 4294967168) :
    ∃ n, F32.ofNat (numBins % SIZE_MOD) = .fin n ∧ 0 ≤ n ∧ n ≤ 4294967040 := by
  have hb : round32 4294967167 = .fin 4294967040 := by decide!
  have hmod : numBins % SIZE_MOD = numBins := Nat.mod_eq_of_lt (by unfold SIZE_MOD; omega)
  have hle : ((numBins : Nat) : ℚ) ≤ 4294967167 := by
    have : numBins ≤ 4294967167 := by omega
    exact_mod_cast this
  rw [hmod]
  exact round32_mono _ _ _ (Nat.cast_nonneg _) hle hb

theorem scaledF_fin (numBins : Nat) (a r c d q n : ℚ) (hr : r ≠ 0)
    (hd : round32 (c - a) = .fin d) (hq : round32 (d / r) = .fin q)
    (hn : F32.ofNat (numBins % SIZE_MOD) = .fin n) :
    scaledF numBins (.fin a) (.fin r) (.fin c) = round32 (q * n) := by
  unfold scaledF
  rw [hn]
  simp only [F32.sub, hd, F32.div, if_neg hr, hq, F32.mul]

/-- With a finite positive range, the scaled values of two elements `c ≤ c'`
between the minimum `a` and the maximum `b` are finite, non-negative, in the
same order, and not above the float of `numBins`. -/
theorem scaledF_mono (numBins : Nat) (a b c c' r n : ℚ) (hac : a ≤ c) (hcc : c ≤ c')
    (hcb : c' ≤ b) (hr : round32 (b - a) = .fin r) (hr0 : 0 < r)
    (hn : F32.ofNat (numBins % SIZE_MOD) = .fin n) :
    ∃ v v', scaledF numBins (.fin a) (.fin r) (.fin c) = .fin v ∧
      scaledF numBins (.fin a) (.fin r) (.fin c') = .fin v' ∧
      0 ≤ v ∧ v ≤ v' ∧ v' ≤ n := by
  have hn2 : round32 n = .fin n := round32_idem _ _ hn
  obtain ⟨d', hd', hd'0, hd'r⟩ :=
    round32_mono (c' - a) (b - a) r (by linarith) (by linarith) hr
  obtain ⟨d, hd, hd0, hdd⟩ :=
    round32_mono (c - a) (c' - a) d' (by linarith) (by linarith) hd'
  have hq'1 : d' / r ≤ 1 := (div_le_one hr0).mpr hd'r
  obtain ⟨q', hq', hq'0, hq'le⟩ :=
    round32_mono (d' / r) 1 1 (div_nonneg hd'0 hr0.le) hq'1 round32_one
  obtain ⟨q, hq, hq0, hqq⟩ :=
    round32_mono (d / r) (d' / r) q' (div_nonneg hd0 hr0.le)
      (div_le_div_of_nonneg_right hdd hr0.le) hq'
  have hn0 : 0 ≤ n := by
    obtain ⟨n', h1, h2⟩ := ofNat_size_finite numBins
    rw [hn] at h1
    simp only [F32.fin.injEq] at h1
    rw [h1]
    exact h2
  obtain ⟨v', hv', hv'0, hv'n⟩ :=
    round32_mono (q' * n) n n (mul_nonneg hq'0 hn0)
      (by nlinarith) hn2
  obtain ⟨v, hv, hv0, hvv⟩ :=
    round32_mono (q * n) (q' * n) v' (mul_nonneg hq0 hn0)
      (mul_le_mul_of_nonneg_right hqq hn0) hv'
  refine ⟨v, v', ?_, ?_, hv0, hvv, hv'n⟩
  · rw [scaledF_fin numBins a r c d q n hr0.ne' hd hq hn, hv]
  · rw [scaledF_fin numBins a r c' d' q' n hr0.ne' hd' hq' hn, hv']

/-- With a finite positive range, the scaled value of the maximum is the float
of `numBins`. -/
theorem scaledF_max (numBins : Nat) (a b r n : ℚ) (hr : round32 (b - a) = .fin r)
    (hr0 : 0 < r) (hn : F32.ofNat (numBins % SIZE_MOD) = .fin n) :
    scaledF numBins (.fin a) (.fin r) (.fin b) = .fin n := by
  have hq : round32 (r / r) = .fin 1 := by
    rw [div_self hr0.ne']
    exact round32_one
  rw [scaledF_fin numBins a r b r 1 n hr0.ne' hr hq hn, one_mul]
  exact round32_idem _ _ hn

/-- The scaled value of the minimum is zero when the range is not zero and
not a NaN. -/
theorem scaledF_min (numBins : Nat) (a : ℚ) (rg : F32)
    (hrg : F32.lt (.fin 0) rg = true) :
    scaledF numBins (.fin a) rg (.fin a) = .fin 0 := by
  obtain ⟨n, hn, _⟩ := ofNat_size_finite numBins
  unfold scaledF
  rw [hn]
  cases rg with
  | nan => simp [F32.lt] at hrg
  | ninf => simp [F32.lt] at hrg
  | pinf => simp [F32.sub, F32.div, F32.mul, round32_zero]
  | fin r =>
    have hr : r ≠ 0 := by
      simp [F32.lt] at hrg
      exact hrg.ne'
    simp [F32.sub, F32.div, F32.mul, round32_zero, hr]

theorem castUIntF_of_fits (C : Conv) (v : ℚ) (h0 : 0 ≤ v) (h1 : v < 4294967296) :
    castUIntF C (.fin v) = ⌊v⌋.toNat := by
  have ht : truncate v = ⌊v⌋ := truncate_eq_floor v h0
  have hf0 : 0 ≤ ⌊v⌋ := Int.floor_nonneg.mpr h0
  have hf1 : ⌊v⌋ < (4294967296 : Int) := by
    apply Int.floor_lt.mpr
    exact_mod_cast h1
  show (if 0 ≤ truncate v ∧ truncate v < (UINT_MOD : Int) then (truncate v).toNat
    else C.fptoui (.fin v) % UINT_MOD) = ⌊v⌋.toNat
  rw [ht, if_pos ⟨hf0, by unfold UINT_MOD; exact_mod_cast hf1⟩]

/-- A buffer without NaN whose range is finite has finite elements, between
a finite minimum and a finite maximum. -/
theorem lumRangeF_finite (buf : List F32) (r : ℚ) (hne : buf ≠ [])
    (hnan : ∀ x ∈ buf, x ≠ .nan) (hr : lumSpanF buf = .fin r) :
    ∃ a b, lumRangeF buf = (.fin a, .fin b) ∧ round32 (b - a) = .fin r ∧
      ∀ x ∈ buf, ∃ c, x = .fin c ∧ a ≤ c ∧ c ≤ b := by
  obtain ⟨hb, hmn, hmx⟩ := lumRangeF_spec buf hne hnan
  unfold lumSpanF at hr
  rcases hrange : lumRangeF buf with ⟨mn, mx⟩
  rw [hrange] at hb hmn hmx hr
  simp only at hb hmn hmx hr
  cases mn with
  | nan => cases mx <;> simp [F32.sub] at hr
  | ninf => cases mx <;> simp [F32.sub] at hr
  | pinf => cases mx <;> simp [F32.sub] at hr
  | fin a =>
    cases mx with
    | nan => simp [F32.sub] at hr
    | ninf => simp [F32.sub] at hr
    | pinf => simp [F32.sub] at hr
    | fin b =>
      refine ⟨a, b, rfl, hr, ?_⟩
      intro x hx
      obtain ⟨h1, h2⟩ := hb x hx
      cases x with
      | nan => simp [F32.le] at h1
      | ninf => simp [F32.le] at h1
      | pinf => simp [F32.le] at h2
      | fin c =>
        simp only [F32.le, decide_eq_true_eq] at h1 h2
        exact ⟨c, rfl, h1, h2⟩

/-- With a finite positive range and `numBins` below `2^32 - 128`, the scaled
value of every element of a buffer without NaN is finite and non-negative,
and the bin of the element is the floor of that value, clamped to
`0 .. numBins - 1`. -/
theorem binOfF_eq_clamp (C : Conv) (buf : List F32) (numBins : Nat) (r : ℚ)
    (hne : buf ≠ []) (hnan : ∀ x ∈ buf, x ≠ .nan)
    (hr : lumSpanF buf = .fin r) (hr0 : 0 < r)
    (hbins : 0 < numBins) (hbins2 : numBins < 4294967168) (x : F32) (hx : x ∈ buf) :
    ∃ v, scaledF numBins (lumRangeF buf).1 (lumSpanF buf) x = .fin v ∧ 0 ≤ v ∧
      (binOfF C buf numBins x : Int) = max 0 (min ((numBins : Int) - 1) ⌊v⌋) := by
  obtain ⟨a, b, hrange, hrd, hel⟩ := lumRangeF_finite buf r hne hnan hr
  obtain ⟨c, rfl, hac, hcb⟩ := hel x hx
  obtain ⟨n, hn, hn0, hn1⟩ := ofNat_lt_uint numBins hbins2
  obtain ⟨v, _, hv, _, hv0, _, hvn⟩ :=
    scaledF_mono numBins a b c c r n hac (le_refl _) hcb hrd hr0 hn
  have hsc : scaledF numBins (lumRangeF buf).1 (lumSpanF buf) (.fin c) = .fin v := by
    rw [hrange, hr]
    exact hv
  refine ⟨v, hsc, hv0, ?_⟩
  have hf0 : 0 ≤ ⌊v⌋ := Int.floor_nonneg.mpr hv0
  show ((stdMin (upperBin numBins)
    (castUIntF C (scaledF numBins (lumRangeF buf).1 (lumSpanF buf) (.fin c))) : Nat) : Int) = _
  rw [hsc, castUIntF_of_fits C v hv0 (by linarith), stdMin_eq_min,
    upperBin_eq numBins hbins (by unfold UINT_MOD; omega)]
  have h1 : ((⌊v⌋.toNat : Nat) : Int) = ⌊v⌋ := Int.toNat_of_nonneg hf0
  rw [Nat.cast_min, h1, Nat.cast_sub hbins, Nat.cast_one]
  have h2 : 0 ≤ min ((numBins : Int) - 1) ⌊v⌋ := le_min (by omega) hf0
  rw [max_eq_right h2]

theorem round32_nonneg_cases (q : ℚ) (hq : 0 ≤ q) :
    round32 q = .pinf ∨ ∃ r, round32 q = .fin r ∧ 0 ≤ r := by
  unfold round32
  by_cases h0 : q = 0
  · rw [if_pos h0]
    exact Or.inr ⟨0, rfl, le_refl _⟩
  · have hpos : 0 < q := lt_of_le_of_ne hq (Ne.symm h0)
    rw [if_neg h0, if_pos hpos]
    by_cases h1 : pow2 128 ≤ roundPos q
    · rw [if_pos h1]
      exact Or.inl rfl
    · rw [if_neg h1]
      exact Or.inr ⟨_, rfl, roundPos_nonneg q hq⟩

/-- Overflow is monotone: above a non-negative value that rounds to infinity,
the rounding is infinity. -/
theorem round32_pinf_mono (a b : ℚ) (ha : 0 ≤ a) (hab : a ≤ b) (h : round32 a = .pinf) :
    round32 b = .pinf := by
  rcases round32_nonneg_cases b (le_trans ha hab) with hb | ⟨r, hb, _⟩
  · exact hb
  · obtain ⟨ra, hra, _⟩ := round32_mono a b r ha hab hb
    rw [h] at hra
    exact absurd hra (by simp)

theorem roundPos_grid (a : ℚ) (ha : 0 < a) : ∃ j : Int, roundPos a = (j : ℚ) * pow2 (-149) := by
  obtain ⟨m, k, hr, _, _, hk⟩ := roundPos_form a ha
  refine ⟨m * (2 : Int) ^ (k + 149).toNat, ?_⟩
  have hsplit : pow2 k = pow2 (k + 149) * pow2 (-149) := by
    rw [← pow2_add]
    congr 1
    ring
  rw [hr, hsplit, pow2_intCast (k + 149) (by omega)]
  push_cast
  ring

/-- A finite binary32 value is an integer multiple of `2^-149`. -/
theorem binary32_grid (q : ℚ) (h : round32 q = .fin q) : ∃ j : Int, q = (j : ℚ) * pow2 (-149) := by
  unfold round32 at h
  by_cases h0 : q = 0
  · exact ⟨0, by simp [h0]⟩
  · rw [if_neg h0] at h
    by_cases hpos : 0 < q
    · rw [if_pos hpos] at h
      by_cases h1 : pow2 128 ≤ roundPos q
      · rw [if_pos h1] at h
        exact absurd h (by simp)
      · rw [if_neg h1] at h
        simp only [F32.fin.injEq] at h
        obtain ⟨j, hj⟩ := roundPos_grid q hpos
        exact ⟨j, by rw [← hj, h]⟩
    · rw [if_neg hpos] at h
      have hneg : 0 < -q := by
        have : q < 0 := lt_of_le_of_ne (not_lt.mp hpos) h0
        linarith
      by_cases h1 : pow2 128 ≤ roundPos (-q)
      · rw [if_pos h1] at h
        exact absurd h (by simp)
      · rw [if_neg h1] at h
        simp only [F32.fin.injEq] at h
        obtain ⟨j, hj⟩ := roundPos_grid (-q) hneg
        refine ⟨-j, ?_⟩
        rw [← h, hj]
        push_cast
        ring

/-- The difference of two binary32 values `a < b` does not round to zero. -/
theorem round32_sub_pos (a b : ℚ) (ha : round32 a = .fin a) (hb : round32 b = .fin b)
    (hab : a < b) : F32.lt (.fin 0) (round32 (b - a)) = true := by
  obtain ⟨ja, hja⟩ := binary32_grid a ha
  obtain ⟨jb, hjb⟩ := binary32_grid b hb
  have hp := pow2_pos (-149)
  have hj : ja < jb := by
    by_contra hc
    have hle : (jb : ℚ) ≤ (ja : ℚ) := by exact_mod_cast not_lt.mp hc
    have : b ≤ a := by
      rw [hja, hjb]
      exact mul_le_mul_of_nonneg_right hle hp.le
    linarith
  have hx : pow2 (-149) ≤ b - a := by
    have h1 : (1 : ℚ) ≤ (jb : ℚ) - (ja : ℚ) := by
      have : ja + 1 ≤ jb := hj
      have h2 : ((ja + 1 : Int) : ℚ) ≤ (jb : ℚ) := by exact_mod_cast this
      push_cast at h2
      linarith
    have e : b - a = ((jb : ℚ) - (ja : ℚ)) * pow2 (-149) := by
      rw [hja, hjb]
      ring
    rw [e]
    calc pow2 (-149) = 1 * pow2 (-149) := (one_mul _).symm
      _ ≤ ((jb : ℚ) - (ja : ℚ)) * pow2 (-149) := mul_le_mul_of_nonneg_right h1 hp.le
  have hxpos : 0 < b - a := lt_of_lt_of_le hp hx
  obtain ⟨s1, s2⟩ := expOf_spec (b - a) hxpos
  have he : -149 < expOf (b - a) + 1 := (pow2_lt_iff _ _).mp (lt_of_le_of_lt hx s2)
  have hq : quantExp (b - a) ≤ expOf (b - a) := by
    unfold quantExp
    omega
  have hrp : 0 < roundPos (b - a) :=
    lt_of_lt_of_le (pow2_pos _) (pow2_le_roundPos (b - a) _ s1 hq)
  unfold round32
  rw [if_neg hxpos.ne', if_pos hxpos]
  split
  · rfl
  · simpa [F32.lt] using hrp

/-- With an infinite range the scaled value of a finite element `c` above the
minimum `a` is zero, unless `c - a` overflows; then it is a NaN, as is the
one of every element above `c`. -/
theorem scaledF_order_inf (numBins : Nat) (a c n : ℚ) (y : F32)
    (hn : F32.ofNat (numBins % SIZE_MOD) = .fin n)
    (hac : a ≤ c) (hy : F32.le (.fin c) y = true) :
    scaledF numBins (.fin a) .pinf (.fin c) = scaledF numBins (.fin a) .pinf y ∨
      scaledF numBins (.fin a) .pinf (.fin c) = .fin 0 := by
  unfold scaledF
  rw [hn]
  rcases round32_nonneg_cases (c - a) (by linarith) with hd | ⟨d, hd, _⟩
  · left
    cases y with
    | nan => exact absurd rfl (ne_nan_of_leF _ _ hy).2
    | ninf => simp [F32.le] at hy
    | pinf => simp [F32.sub, hd, F32.div, F32.mul]
    | fin c' =>
      simp only [F32.le, decide_eq_true_eq] at hy
      have hd' := round32_pinf_mono (c - a) (c' - a) (by linarith) (by linarith) hd
      simp [F32.sub, hd, hd', F32.div, F32.mul]
  · right
    simp [F32.sub, hd, F32.div, F32.mul, round32_zero]

/-- The scaled values of two elements `x ≤ y` of a buffer with minimum `mn`
and maximum `mx`, none of them a NaN: they are equal, or the one of `x` is
zero, or both are finite, non-negative, in the same order and not above the
float of `numBins`. -/
theorem scaledF_order (numBins : Nat) (mn mx x y : F32) (n : ℚ)
    (hn : F32.ofNat (numBins % SIZE_MOD) = .fin n)
    (h1 : F32.le mn x = true) (h2 : F32.le x y = true) (h3 : F32.le y mx = true) :
    scaledF numBins mn (F32.sub mx mn) x = scaledF numBins mn (F32.sub mx mn) y ∨
      scaledF numBins mn (F32.sub mx mn) x = .fin 0 ∨
      ∃ v v', scaledF numBins mn (F32.sub mx mn) x = .fin v ∧
        scaledF numBins mn (F32.sub mx mn) y = .fin v' ∧ 0 ≤ v ∧ v ≤ v' ∧ v' ≤ n := by
  cases mn with
  | nan => exact absurd rfl (ne_nan_of_leF _ _ h1).1
  | pinf =>
    have hx : x = .pinf := by cases x <;> simp [F32.le] at h1 ⊢
    subst hx
    have hy : y = .pinf := by cases y <;> simp [F32.le] at h2 ⊢
    subst hy
    exact Or.inl rfl
  | ninf =>
    left
    cases mx with
    | nan => exact absurd rfl (ne_nan_of_leF _ _ h3).2
    | ninf =>
      have hy : y = .ninf := by cases y <;> simp [F32.le] at h3 ⊢
      subst hy
      have hx : x = .ninf := by cases x <;> simp [F32.le] at h2 ⊢
      subst hx
      rfl
    | fin b =>
      unfold scaledF
      rw [hn]
      cases x <;> cases y <;> simp [F32.le, F32.sub, F32.div, F32.mul] at h1 h2 h3 ⊢
    | pinf =>
      unfold scaledF
      rw [hn]
      cases x <;> cases y <;> simp [F32.le, F32.sub, F32.div, F32.mul] at h1 h2 h3 ⊢
  | fin a =>
    cases x with
    | nan => exact absurd rfl (ne_nan_of_leF _ _ h1).2
    | ninf => simp [F32.le] at h1
    | pinf =>
      have hy : y = .pinf := by cases y <;> simp [F32.le] at h2 ⊢
      subst hy
      exact Or.inl rfl
    | fin c =>
      have hac : a ≤ c := by simpa [F32.le] using h1
      cases mx with
      | nan => exact absurd rfl (ne_nan_of_leF _ _ h3).2
      | ninf => cases y <;> simp [F32.le] at h2 h3
      | pinf =>
        rcases scaledF_order_inf numBins a c n y hn hac h2 with h | h
        · exact Or.inl h
        · exact Or.inr (Or.inl h)
      | fin b =>
        cases y with
        | nan => exact absurd rfl (ne_nan_of_leF _ _ h2).2
        | ninf => simp [F32.le] at h2
        | pinf => simp [F32.le] at h3
        | fin c' =>
          have hcc : c ≤ c' := by simpa [F32.le] using h2
          have hcb : c' ≤ b := by simpa [F32.le] using h3
          rcases round32_nonneg_cases (b - a) (by linarith) with hr | ⟨r, hr, hr0⟩
          · have hrg : F32.sub (.fin b) (.fin a) = .pinf := hr
            rw [hrg]
            rcases scaledF_order_inf numBins a c n (.fin c') hn hac h2 with h | h
            · exact Or.inl h
            · exact Or.inr (Or.inl h)
          · have hrg : F32.sub (.fin b) (.fin a) = .fin r := hr
            rw [hrg]
            rcases hr0.lt_or_eq with hpos | hz
            · exact Or.inr (Or.inr (scaledF_mono numBins a b c c' r n hac hcc hcb hr hpos hn))
            · left
              subst hz
              obtain ⟨d', hd', hd'0, hd'r⟩ :=
                round32_mono (c' - a) (b - a) 0 (by linarith) (by linarith) hr
              obtain ⟨d, hd, hd0, hdd⟩ :=
                round32_mono (c - a) (c' - a) d' (by linarith) (by linarith) hd'
              have e' : d' = 0 := le_antisymm hd'r hd'0
              have e : d = 0 := le_antisymm (e' ▸ hdd) hd0
              subst e e'
              unfold scaledF
              rw [hn]
              simp [F32.sub, hd, hd', F32.div, F32.mul]

/-! ## Bins of the float run -/

theorem castUIntF_zero (C : Conv) : castUIntF C (.fin 0) = 0 := by
  rw [castUIntF_of_fits C 0 (le_refl _) (by norm_num)]
  simp

/-- Bins are monotone on a buffer without NaN when the float of `numBins` is
below `2^32`. -/
theorem binOfF_mono (C : Conv) (buf : List F32) (numBins : Nat) (hne : buf ≠ [])
    (hnan : ∀ x ∈ buf, x ≠ .nan) (hbins2 : numBins < 4294967168)
    (x y : F32) (hx : x ∈ buf) (hy : y ∈ buf) (hxy : F32.le x y = true) :
    binOfF C buf numBins x ≤ binOfF C buf numBins y := by
  obtain ⟨hb, _, _⟩ := lumRangeF_spec buf hne hnan
  obtain ⟨n, hn, hn0, hn1⟩ := ofNat_lt_uint numBins hbins2
  have key := scaledF_order numBins (lumRangeF buf).1 (lumRangeF buf).2 x y n hn
    (hb x hx).1 hxy (hb y hy).2
  show stdMin (upperBin numBins)
      (castUIntF C (scaledF numBins (lumRangeF buf).1 (lumSpanF buf) x))
    ≤ stdMin (upperBin numBins)
      (castUIntF C (scaledF numBins (lumRangeF buf).1 (lumSpanF buf) y))
  unfold lumSpanF
  rw [stdMin_eq_min, stdMin_eq_min]
  rcases key with h | h | ⟨v, v', hv, hv', hv0, hvv, hvn⟩
  · rw [h]
  · rw [h, castUIntF_zero]
    simp
  · rw [hv, hv', castUIntF_of_fits C v hv0 (by linarith),
      castUIntF_of_fits C v' (le_trans hv0 hvv) (by linarith)]
    exact min_le_min (le_refl _) (Int.toNat_le_toNat (Int.floor_mono hvv))

/-- A finite element equal to the minimum has bin 0 when the range is neither
zero nor a NaN. -/
theorem binOfF_min (C : Conv) (buf : List F32) (numBins : Nat) (q : ℚ)
    (hq : (lumRangeF buf).1 = .fin q) (hrg : F32.lt (.fin 0) (lumSpanF buf) = true) :
    binOfF C buf numBins (.fin q) = 0 := by
  show stdMin (upperBin numBins)
      (castUIntF C (scaledF numBins (lumRangeF buf).1 (lumSpanF buf) (.fin q))) = 0
  rw [hq, scaledF_min numBins q _ hrg, castUIntF_zero, stdMin_eq_min]
  simp

/-- With a finite positive range, the maximum has bin `numBins - 1` when the
float of `numBins` is at least `numBins - 1` and below `2^32`. -/
theorem binOfF_max (C : Conv) (buf : List F32) (numBins : Nat) (a b r n : ℚ)
    (hrange : lumRangeF buf = (.fin a, .fin b)) (hr : lumSpanF buf = .fin r) (hr0 : 0 < r)
    (hbins : 0 < numBins)
    (hn : F32.ofNat (numBins % SIZE_MOD) = .fin n)
    (hn1 : (numBins : ℚ) - 1 ≤ n) (hn2 : n < 4294967296) :
    binOfF C buf numBins (.fin b) = numBins - 1 := by
  have hrd : round32 (b - a) = .fin r := by
    unfold lumSpanF at hr
    rw [hrange] at hr
    exact hr
  have hsc := scaledF_max numBins a b r n hrd hr0 hn
  have hn0 : 0 ≤ n := by
    have : (1 : ℚ) ≤ (numBins : ℚ) := by exact_mod_cast hbins
    linarith
  have hle : numBins ≤ 4294967296 := by
    have h : (numBins : ℚ) - 1 < 4294967296 := lt_of_le_of_lt hn1 hn2
    have h2 : (numBins : ℚ) < ((4294967297 : Nat) : ℚ) := by
      push_cast
      linarith
    have h3 : numBins < 4294967297 := by exact_mod_cast h2
    omega
  show stdMin (upperBin numBins)
      (castUIntF C (scaledF numBins (lumRangeF buf).1 (lumSpanF buf) (.fin b))) = numBins - 1
  rw [hrange, hr, hsc, castUIntF_of_fits C n hn0 hn2, stdMin_eq_min,
    upperBin_eq numBins hbins (by unfold UINT_MOD; exact hle)]
  apply min_eq_left
  have hf : ((numBins - 1 : Nat) : Int) ≤ ⌊n⌋ := by
    apply Int.le_floor.mpr
    rw [Int.cast_natCast, Nat.cast_sub hbins, Nat.cast_one]
    exact hn1
  omega

/-- Up to `2^24` the conversion of `numBins` to float is exact. -/
theorem ofNat_exact (numBins : Nat) (h : numBins ≤ 16777216) :
    F32.ofNat (numBins % SIZE_MOD) = .fin (numBins : ℚ) := by
  have hmod : numBins % SIZE_MOD = numBins := Nat.mod_eq_of_lt (by unfold SIZE_MOD; omega)
  rw [hmod]
  unfold F32.ofNat round32
  by_cases h0 : numBins = 0
  · simp [h0]
  · have hq0 : (numBins : ℚ) ≠ 0 := by exact_mod_cast h0
    have hpos : (0 : ℚ) < (numBins : ℚ) := by exact_mod_cast Nat.pos_of_ne_zero h0
    have hex : roundPos (numBins : ℚ) = (numBins : ℚ) := by
      have h1 := roundPos_exact (numBins : Int) 0 (by omega) (by omega) (by norm_num)
      have hp : pow2 0 = 1 := by decide!
      rw [hp, mul_one, Int.cast_natCast] at h1
      exact h1
    have hsmall : ¬ pow2 128 ≤ (numBins : ℚ) := by
      have hp : pow2 128 = ((340282366920938463463374607431768211456 : Nat) : ℚ) := by decide!
      rw [hp]
      have : ¬ (340282366920938463463374607431768211456 ≤ numBins) := by omega
      exact_mod_cast this
    rw [if_neg hq0, if_pos hpos, hex, if_neg hsmall]

/-! ## Counts of the float run -/

theorem countBelowF_zero (C : Conv) (buf : List F32) (numBins : Nat) :
    countBelowF C buf numBins 0 = 0 := by
  simp [countBelowF]

theorem countBelowF_succ (C : Conv) (buf : List F32) (numBins i : Nat) :
    countBelowF C buf numBins (i + 1)
      = countBelowF C buf numBins i + binCountF C buf numBins i :=
  countP_lt_succ (binOfF C buf numBins) buf i

theorem countBelowF_numBins (C : Conv) (buf : List F32) (numBins : Nat) (h : 0 < numBins) :
    countBelowF C buf numBins numBins = buf.length := by
  unfold countBelowF
  rw [List.countP_eq_length]
  intro x _
  simpa using binOfF_lt C buf numBins x h

theorem countBelowF_mono (C : Conv) (buf : List F32) (numBins i j : Nat) (hij : i ≤ j) :
    countBelowF C buf numBins i ≤ countBelowF C buf numBins j := by
  unfold countBelowF
  apply List.countP_mono_left
  intro x _ hx
  have h : binOfF C buf numBins x < i := by simpa using hx
  simpa using lt_of_lt_of_le h hij

/-! ## The two wide float buffers -/

theorem mem_wideBufferF (x : F32) : x ∈ wideBufferF ↔ x = .fin 0 ∨ x = .fin 1 := by
  unfold wideBufferF
  rw [List.mem_append, List.mem_replicate, List.mem_singleton]
  constructor
  · rintro (⟨_, h⟩ | h)
    · exact Or.inl h
    · exact Or.inr h
  · rintro (h | h)
    · exact Or.inl ⟨by decide, h⟩
    · exact Or.inr h

theorem length_wideBufferF : wideBufferF.length = 4294967297 := by
  unfold wideBufferF
  rw [List.length_append, List.length_replicate, List.length_singleton]

theorem nan_free_wideBufferF : ∀ x ∈ wideBufferF, x ≠ .nan := by
  intro x hx
  rcases (mem_wideBufferF x).mp hx with h | h <;> subst h <;> simp

theorem lumRangeF_wideBufferF : lumRangeF wideBufferF = (.fin 0, .fin 1) := by
  apply lumRangeF_unique
  · exact nan_free_wideBufferF
  · exact (mem_wideBufferF _).mpr (Or.inl rfl)
  · exact (mem_wideBufferF _).mpr (Or.inr rfl)
  · intro x hx
    rcases (mem_wideBufferF x).mp hx with h | h <;> subst h <;> constructor <;>
      simp [F32.le]

theorem binOfF_wideBufferF :
    binOfF zeroConv wideBufferF 2 (.fin 0) = 0 ∧ binOfF zeroConv wideBufferF 2 (.fin 1) = 1 := by
  unfold binOfF lumSpanF
  rw [lumRangeF_wideBufferF]
  constructor <;> decide!

theorem countBelowF_wideBufferF :
    countBelowF zeroConv wideBufferF 2 0 = 0 ∧
      countBelowF zeroConv wideBufferF 2 1 = 4294967296 := by
  obtain ⟨h0, h1⟩ := binOfF_wideBufferF
  refine ⟨countBelowF_zero _ _ _, ?_⟩
  unfold countBelowF
  generalize binOfF zeroConv wideBufferF 2 = bin at h0 h1
  have key : ∀ n : Nat,
      List.countP (fun x => decide (bin x < 1))
        (List.replicate n (F32.fin 0) ++ [F32.fin 1]) = n := by
    intro n
    simp [List.countP_append, List.countP_replicate, List.countP_cons, h0, h1]
  exact key 4294967296

theorem binCountF_wideBufferF :
    binCountF zeroConv wideBufferF 2 0 = 4294967296 ∧
      binCountF zeroConv wideBufferF 2 1 = 1 := by
  obtain ⟨h0, h1⟩ := binOfF_wideBufferF
  unfold binCountF
  generalize binOfF zeroConv wideBufferF 2 = bin at h0 h1
  have key0 : ∀ n : Nat,
      List.countP (fun x => decide (bin x = 0))
        (List.replicate n (F32.fin 0) ++ [F32.fin 1]) = n := by
    intro n
    simp [List.countP_append, List.countP_replicate, List.countP_cons, h0, h1]
  have key1 : ∀ n : Nat,
      List.countP (fun x => decide (bin x = 1))
        (List.replicate n (F32.fin 0) ++ [F32.fin 1]) = 1 := by
    intro n
    simp [List.countP_append, List.countP_replicate, List.countP_cons, h0, h1]
  exact ⟨key0 4294967296, key1 4294967296⟩

/-- The scratch histogram of the float run on `wideBufferF`: the counter of
bin 0 has wrapped. -/
theorem histogramF_wideBufferF : histogramF zeroConv wideBufferF 2 = some [0, 1] := by
  rw [histogramF_eq zeroConv wideBufferF 2 (by decide)]
  have hr : List.range 2 = [0, 1] := by decide
  rw [hr, List.map_cons, List.map_cons, List.map_nil, binCountF_wideBufferF.1,
    binCountF_wideBufferF.2]
  rfl

/-- The float run on `wideBufferF` with two bins: the counter of bin 0 wraps
to zero. -/
theorem cdf_cpuF_wideBufferF (h_cdf : List Nat) (a b : F32) (hcap : h_cdf.length = 2) :
    cdf_cpuF zeroConv wideBufferF h_cdf 1 4294967297 2 a b
      = .returned ⟨.fin 0, .fin 1, [0, 0]⟩ := by
  have hne : wideBufferF ≠ [] := List.ne_nil_of_mem ((mem_wideBufferF _).mpr (Or.inl rfl))
  rw [cdf_cpuF_eq zeroConv wideBufferF h_cdf 1 4294967297 2 a b hne
    (by rw [length_wideBufferF]) (by decide) hcap, lumRangeF_wideBufferF]
  have hr : List.range 2 = [0, 1] := by decide
  rw [hr, List.map_cons, List.map_cons, List.map_nil, countBelowF_wideBufferF.1,
    countBelowF_wideBufferF.2]
  rfl

theorem mem_wideBufferF3 (x : F32) :
    x ∈ wideBufferF3 ↔ x = .fin 0 ∨ x = .fin 1 ∨ x = .fin 2 := by
  unfold wideBufferF3
  rw [List.mem_append, List.mem_replicate]
  simp only [List.mem_cons, List.mem_singleton, List.not_mem_nil, or_false]
  constructor
  · rintro (⟨_, h⟩ | h | h | h)
    · exact Or.inl h
    · exact Or.inr (Or.inl h)
    · exact Or.inr (Or.inl h)
    · exact Or.inr (Or.inr h)
  · rintro (h | h | h)
    · exact Or.inl ⟨by decide, h⟩
    · exact Or.inr (Or.inl h)
    · exact Or.inr (Or.inr (Or.inr h))

theorem length_wideBufferF3 : wideBufferF3.length = 4294967298 := by
  unfold wideBufferF3
  rw [List.length_append, List.length_replicate]
  rfl

theorem nan_free_wideBufferF3 : ∀ x ∈ wideBufferF3, x ≠ .nan := by
  intro x hx
  rcases (mem_wideBufferF3 x).mp hx with h | h | h <;> subst h <;> simp

theorem lumRangeF_wideBufferF3 : lumRangeF wideBufferF3 = (.fin 0, .fin 2) := by
  apply lumRangeF_unique
  · exact nan_free_wideBufferF3
  · exact (mem_wideBufferF3 _).mpr (Or.inl rfl)
  · exact (mem_wideBufferF3 _).mpr (Or.inr (Or.inr rfl))
  · intro x hx
    rcases (mem_wideBufferF3 x).mp hx with h | h | h <;> subst h <;> constructor <;>
      simp [F32.le]

theorem binOfF_wideBufferF3 :
    binOfF zeroConv wideBufferF3 3 (.fin 0) = 0 ∧ binOfF zeroConv wideBufferF3 3 (.fin 1) = 1 ∧
      binOfF zeroConv wideBufferF3 3 (.fin 2) = 2 := by
  unfold binOfF lumSpanF
  rw [lumRangeF_wideBufferF3]
  refine ⟨?_, ?_, ?_⟩ <;> decide!

theorem countBelowF_wideBufferF3 :
    countBelowF zeroConv wideBufferF3 3 0 = 0 ∧
      countBelowF zeroConv wideBufferF3 3 1 = 4294967295 ∧
      countBelowF zeroConv wideBufferF3 3 2 = 4294967297 := by
  obtain ⟨h0, h1, h2⟩ := binOfF_wideBufferF3
  refine ⟨countBelowF_zero _ _ _, ?_, ?_⟩
  · unfold countBelowF
    generalize binOfF zeroConv wideBufferF3 3 = bin at h0 h1 h2
    have key : ∀ n : Nat,
        List.countP (fun x => decide (bin x < 1))
          (List.replicate n (F32.fin 0) ++ [F32.fin 1, F32.fin 1, F32.fin 2]) = n := by
      intro n
      simp [List.countP_append, List.countP_replicate, List.countP_cons, h0, h1, h2]
    exact key 4294967295
  · unfold countBelowF
    generalize binOfF zeroConv wideBufferF3 3 = bin at h0 h1 h2
    have key : ∀ n : Nat,
        List.countP (fun x => decide (bin x < 2))
          (List.replicate n (F32.fin 0) ++ [F32.fin 1, F32.fin 1, F32.fin 2]) = n + 2 := by
      intro n
      simp [List.countP_append, List.countP_replicate, List.countP_cons, h0, h1, h2]
    exact key 4294967295

/-- The float run on `wideBufferF3` with three bins: the sum for entry 2
wraps. -/
theorem cdf_cpuF_wideBufferF3 (h_cdf : List Nat) (a b : F32) (hcap : h_cdf.length = 3) :
    cdf_cpuF zeroConv wideBufferF3 h_cdf 1 4294967298 3 a b
      = .returned ⟨.fin 0, .fin 2, [0, 4294967295, 1]⟩ := by
  have hne : wideBufferF3 ≠ [] := List.ne_nil_of_mem ((mem_wideBufferF3 _).mpr (Or.inl rfl))
  rw [cdf_cpuF_eq zeroConv wideBufferF3 h_cdf 1 4294967298 3 a b hne
    (by rw [length_wideBufferF3]) (by decide) hcap, lumRangeF_wideBufferF3]
  have hr : List.range 3 = [0, 1, 2] := by decide
  rw [hr, List.map_cons, List.map_cons, List.map_cons, List.map_nil,
    countBelowF_wideBufferF3.1, countBelowF_wideBufferF3.2.1, countBelowF_wideBufferF3.2.2]
  rfl

/-! ## The range of a buffer of binary32 values -/

/-- On a buffer of binary32 values, `logLumMax > logLumMin` makes
`logLumRange` positive: a positive finite value or plus infinity. -/
theorem lumSpanF_pos (buf : List F32) (hne : buf ≠ [])
    (hrep : ∀ x ∈ buf, F32.isBinary32 x = true)
    (hlt : F32.lt (lumRangeF buf).1 (lumRangeF buf).2 = true) :
    F32.lt (.fin 0) (lumSpanF buf) = true := by
  obtain ⟨hmn, hmx⟩ := lumRangeF_mem buf hne
  have r1 := hrep _ hmn
  have r2 := hrep _ hmx
  unfold lumSpanF
  generalize (lumRangeF buf).1 = mn at *
  generalize (lumRangeF buf).2 = mx at *
  cases mn with
  | nan => simp [F32.lt] at hlt
  | pinf => cases mx <;> simp [F32.lt] at hlt
  | ninf => cases mx <;> simp [F32.lt, F32.sub] at hlt ⊢
  | fin a =>
    cases mx with
    | nan => simp [F32.lt] at hlt
    | ninf => simp [F32.lt] at hlt
    | pinf => simp [F32.lt, F32.sub]
    | fin b =>
      simp only [F32.isBinary32, decide_eq_true_eq] at r1 r2
      simp only [F32.lt, decide_eq_true_eq] at hlt
      exact round32_sub_pos a b r1 r2 hlt

/-- On a buffer of binary32 values with `logLumMax > logLumMin` and a range
that has not overflowed, `logLumRange` is finite and positive, and so are
`logLumMin` and `logLumMax` finite. -/
theorem lumSpanF_fin_pos (buf : List F32) (hne : buf ≠ [])
    (hrep : ∀ x ∈ buf, F32.isBinary32 x = true)
    (hlt : F32.lt (lumRangeF buf).1 (lumRangeF buf).2 = true)
    (hfin : lumSpanF buf ≠ .pinf) :
    ∃ r, lumSpanF buf = .fin r ∧ 0 < r := by
  have h := lumSpanF_pos buf hne hrep hlt
  cases hs : lumSpanF buf with
  | nan => rw [hs] at h; simp [F32.lt] at h
  | ninf => rw [hs] at h; simp [F32.lt] at h
  | pinf => exact absurd hs hfin
  | fin r =>
    rw [hs] at h
    exact ⟨r, rfl, by simpa [F32.lt] using h⟩

/-- A finite range comes from a finite minimum and a finite maximum. -/
theorem lumSpanF_fin_ends (buf : List F32) (r : ℚ) (hr : lumSpanF buf = .fin r) :
    ∃ a b, lumRangeF buf = (.fin a, .fin b) ∧ round32 (b - a) = .fin r := by
  unfold lumSpanF at hr
  rcases hrange : lumRangeF buf with ⟨mn, mx⟩
  rw [hrange] at hr
  simp only at hr
  cases mn <;> cases mx <;> simp [F32.sub] at hr
  exact ⟨_, _, rfl, hr⟩

theorem numBinsFloatOk_spec (numBins : Nat) (h : numBinsFloatOk numBins = true) :
    ∃ n, F32.ofNat (numBins % SIZE_MOD) = .fin n ∧ (numBins : ℚ) - 1 ≤ n ∧ n < 4294967296 := by
  unfold numBinsFloatOk at h
  cases hn : F32.ofNat (numBins % SIZE_MOD) with
  | nan => rw [hn] at h; simp at h
  | ninf => rw [hn] at h; simp at h
  | pinf => rw [hn] at h; simp at h
  | fin n =>
    rw [hn] at h
    simp only [decide_eq_true_eq] at h
    exact ⟨n, rfl, h.1, h.2⟩

/-- Every `numBins` up to `2^24` converts to float exactly, so the condition
`numBinsFloatOk` holds. -/
theorem numBinsFloatOk_of_le (numBins : Nat) (h : numBins ≤ 16777216) :
    numBinsFloatOk numBins = true := by
  unfold numBinsFloatOk
  rw [ofNat_exact numBins h]
  simp only [decide_eq_true_eq]
  constructor
  · linarith
  · have : (numBins : ℚ) ≤ ((16777216 : Nat) : ℚ) := by exact_mod_cast h
    push_cast at this
    linarith

/-! ## The claims -/

/-- C1 as stated fails on a buffer with a NaN element.  On `[1, NaN, 3]` the
comparisons of `std::min` and `std::max` with the NaN are false, so both
running values become the NaN at the second element and the third element
replaces both: the run leaves `logLumMin = logLumMax = 3`, which is above
the element 1. -/
theorem range_bounds_fail_after_nan :
    (cdf_cpuF zeroConv [.fin 1, .nan, .fin 3] [0, 0] 1 3 2 (.fin 0) (.fin 0)).outputs.logLumMin
        = .fin 3 ∧
      (cdf_cpuF zeroConv [.fin 1, .nan, .fin 3] [0, 0] 1 3 2 (.fin 0) (.fin 0)).outputs.logLumMax
        = .fin 3 ∧
      cdf_cpuF zeroConv [.fin 1, .nan, .fin 3] [0, 0] 1 3 2 (.fin 0) (.fin 0)
        = .returned ⟨.fin 3, .fin 3, [0, 3]⟩ ∧
      ¬ (∀ x ∈ [F32.fin 1, .nan, .fin 3],
        F32.le (cdf_cpuF zeroConv [.fin 1, .nan, .fin 3] [0, 0] 1 3 2
            (.fin 0) (.fin 0)).outputs.logLumMin x = true ∧
          F32.le x (cdf_cpuF zeroConv [.fin 1, .nan, .fin 3] [0, 0] 1 3 2
            (.fin 0) (.fin 0)).outputs.logLumMax = true) := by
  refine ⟨?_, ?_, ?_, ?_⟩ <;> decide!

/-- C1 (amended). For every non-empty luminance buffer of
`numRows * numCols` elements none of which is a NaN, the values `cdf_cpu`
leaves in `logLumMin` and `logLumMax` bound every element of the buffer from
below and from above, and each of them is an element of the buffer; with a
positive `numBins` and an output array of at least `numBins` entries the run
returns. -/
theorem range_bounds_and_membership_nan_free (C : Conv) (buf : List F32) (h_cdf : List Nat)
    (numRows numCols numBins : Nat) (a b : F32)
    (hlen : buf.length = numRows * numCols) (hpos : 1 ≤ numRows * numCols)
    (hnan : ∀ x ∈ buf, x ≠ .nan) :
    (∀ x ∈ buf,
        F32.le (cdf_cpuF C buf h_cdf numRows numCols numBins a b).outputs.logLumMin x = true ∧
          F32.le x (cdf_cpuF C buf h_cdf numRows numCols numBins a b).outputs.logLumMax
            = true) ∧
      (cdf_cpuF C buf h_cdf numRows numCols numBins a b).outputs.logLumMin ∈ buf ∧
      (cdf_cpuF C buf h_cdf numRows numCols numBins a b).outputs.logLumMax ∈ buf ∧
      (0 < numBins → numBins ≤ h_cdf.length →
        ∃ o, cdf_cpuF C buf h_cdf numRows numCols numBins a b = .returned o) := by
  have hne : buf ≠ [] := by
    intro h
    rw [h, List.length_nil] at hlen
    omega
  obtain ⟨h1, h2⟩ := cdf_cpuF_outputs_range C buf h_cdf numRows numCols numBins a b hne hlen
  obtain ⟨s1, s2, s3⟩ := lumRangeF_spec buf hne hnan
  rw [h1, h2]
  refine ⟨s1, s2, s3, ?_⟩
  intro hbins hcap
  rw [cdf_cpuF_eq_cap C buf h_cdf numRows numCols numBins a b hne hlen hbins hcap]
  exact ⟨_, rfl⟩

/-- Witness for C1 (amended): the buffer `[3, 1, 2]` as one row of three
columns. -/
theorem range_bounds_and_membership_nan_free_witness :
    ([.fin 3, .fin 1, .fin 2] : List F32).length = 1 * 3 ∧ 1 ≤ 1 * 3 ∧
      (∀ x ∈ ([.fin 3, .fin 1, .fin 2] : List F32), x ≠ .nan) ∧
      ((∀ x ∈ ([.fin 3, .fin 1, .fin 2] : List F32),
        F32.le (cdf_cpuF zeroConv [.fin 3, .fin 1, .fin 2] [0, 0] 1 3 2
            (.fin 0) (.fin 0)).outputs.logLumMin x = true ∧
          F32.le x (cdf_cpuF zeroConv [.fin 3, .fin 1, .fin 2] [0, 0] 1 3 2
            (.fin 0) (.fin 0)).outputs.logLumMax = true) ∧
      (cdf_cpuF zeroConv [.fin 3, .fin 1, .fin 2] [0, 0] 1 3 2
          (.fin 0) (.fin 0)).outputs.logLumMin ∈ ([.fin 3, .fin 1, .fin 2] : List F32) ∧
      (cdf_cpuF zeroConv [.fin 3, .fin 1, .fin 2] [0, 0] 1 3 2
          (.fin 0) (.fin 0)).outputs.logLumMax ∈ ([.fin 3, .fin 1, .fin 2] : List F32) ∧
      (0 < 2 → 2 ≤ ([0, 0] : List Nat).length →
        ∃ o, cdf_cpuF zeroConv [.fin 3, .fin 1, .fin 2] [0, 0] 1 3 2 (.fin 0) (.fin 0)
          = .returned o)) :=
  ⟨by decide, by decide, by decide,
    range_bounds_and_membership_nan_free zeroConv [.fin 3, .fin 1, .fin 2] [0, 0] 1 3 2
      (.fin 0) (.fin 0) (by decide) (by decide) (by decide)⟩

/-- C5. On the buffer `[1, 2, 3, 4]`, laid out in any `numRows * numCols = 4`,
with `numBins = 2` and an output array of two entries, `cdf_cpu` returns
`logLumMin = 1`, `logLumMax = 4` and `cdf = [0, 2]`; the elements 1 and 2 are
assigned bin 0, the elements 3 and 4 bin 1, and the histogram is `[2, 2]`. -/
theorem scenario_four_elements (T : Target) (h_cdf : List Nat) (numRows numCols : Nat)
    (a b : ℚ) (hdim : numRows * numCols = 4) (hcap : h_cdf.length = 2) :
    cdf_cpu T [1, 2, 3, 4] h_cdf numRows numCols 2 a b = .returned ⟨1, 4, [0, 2]⟩ ∧
      ([1, 2, 3, 4] : List ℚ).map (binOf T [1, 2, 3, 4] 2) = [0, 0, 1, 1] ∧
      histogram T [1, 2, 3, 4] 2 = some [2, 2] := by
  have hb := binOf_scenario T
  refine ⟨?_, ?_, ?_⟩
  · rw [cdf_cpu_eq T [1, 2, 3, 4] h_cdf numRows numCols 2 a b (by simp) (by simpa using hdim.symm)
      (by decide) hcap]
    have hc : (List.range 2).map (fun i => countBelow T [1, 2, 3, 4] 2 i % UINT_MOD)
        = (List.range 2).map (fun i => countBelow zeroTarget [1, 2, 3, 4] 2 i % UINT_MOD) := by
      apply List.map_congr_left
      intro i _
      rw [countBelow_congr T zeroTarget _ _ hb]
    rw [hc]
    decide!
  · rw [List.map_congr_left hb]
    decide!
  · rw [histogram_eq T _ 2 (by decide)]
    have hc : (List.range 2).map (fun j => binCount T [1, 2, 3, 4] 2 j % UINT_MOD)
        = (List.range 2).map (fun j => binCount zeroTarget [1, 2, 3, 4] 2 j % UINT_MOD) := by
      apply List.map_congr_left
      intro j _
      rw [binCount_congr T zeroTarget _ _ hb]
    rw [hc]
    decide!

/-- Witness for C5: two rows of two columns on the saturating target. -/
theorem scenario_four_elements_witness :
    2 * 2 = 4 ∧ ([9, 9] : List Nat).length = 2 ∧
      cdf_cpu satTarget [1, 2, 3, 4] [9, 9] 2 2 2 0 0 = .returned ⟨1, 4, [0, 2]⟩ ∧
      ([1, 2, 3, 4] : List ℚ).map (binOf satTarget [1, 2, 3, 4] 2) = [0, 0, 1, 1] ∧
      histogram satTarget [1, 2, 3, 4] 2 = some [2, 2] :=
  ⟨by decide, by decide,
    scenario_four_elements satTarget [9, 9] 2 2 0 0 (by decide) (by decide)⟩

/-- C6 as stated fails on a target whose conversion yields 0: on the buffer
`[3.5]` with `numBins = 4` the run returns `cdf = [0, 1, 1, 1]`, not
`[0, 0, 0, 0]`. -/
theorem single_element_cdf_not_all_zero :
    cdf_cpu zeroTarget [7 / 2] [0, 0, 0, 0] 1 1 4 0 0
        = .returned ⟨7 / 2, 7 / 2, [0, 1, 1, 1]⟩ ∧
      cdf_cpu zeroTarget [7 / 2] [0, 0, 0, 0] 1 1 4 0 0
        ≠ .returned ⟨7 / 2, 7 / 2, [0, 0, 0, 0]⟩ := by
  constructor <;> decide!

/-- C6 (amended). On the buffer `[3.5]` with `numBins = 4` and an output array
of four entries, `cdf_cpu` returns `logLumMin = logLumMax = 3.5` and the
exclusive prefix sum of a histogram that holds the one element in a single
bin `bin < 4`: `cdf[0] = 0` and `cdf[i]` is 1 when `bin < i` and 0 otherwise.
Which bin that is, is not stated. -/
theorem single_element_scenario (T : Target) (h_cdf : List Nat) (numRows numCols : Nat)
    (a b : ℚ) (hdim : numRows * numCols = 1) (hcap : h_cdf.length = 4) :
    ∃ bin, bin < 4 ∧ binOf T [7 / 2] 4 (7 / 2) = bin ∧
      cdf_cpu T [7 / 2] h_cdf numRows numCols 4 a b
        = .returned ⟨7 / 2, 7 / 2,
            [0, if bin < 1 then 1 else 0, if bin < 2 then 1 else 0,
              if bin < 3 then 1 else 0]⟩ := by
  refine ⟨binOf T [7 / 2] 4 (7 / 2), binOf_lt T _ 4 _ (by decide), rfl, ?_⟩
  rw [cdf_cpu_eq T [7 / 2] h_cdf numRows numCols 4 a b (by simp) (by simpa using hdim.symm)
    (by decide) hcap]
  have hcb : ∀ i, countBelow T [7 / 2] 4 i % UINT_MOD
      = if binOf T [7 / 2] 4 (7 / 2) < i then 1 else 0 := by
    intro i
    unfold countBelow
    rw [List.countP_cons, List.countP_nil]
    by_cases h : binOf T [7 / 2] 4 (7 / 2) < i <;> simp [h, UINT_MOD]
  have hr : List.range 4 = [0, 1, 2, 3] := by decide
  have hl : lumRange [7 / 2] = (7 / 2, 7 / 2) := rfl
  simp only [hcb, hr, hl, List.map_cons, List.map_nil, Nat.not_lt_zero, if_false]

/-- Witness for C6 (amended): one row of one column on the saturating target. -/
theorem single_element_scenario_witness :
    1 * 1 = 1 ∧ ([9, 9, 9, 9] : List Nat).length = 4 ∧
      ∃ bin, bin < 4 ∧ binOf satTarget [7 / 2] 4 (7 / 2) = bin ∧
        cdf_cpu satTarget [7 / 2] [9, 9, 9, 9] 1 1 4 0 0
          = .returned ⟨7 / 2, 7 / 2,
              [0, if bin < 1 then 1 else 0, if bin < 2 then 1 else 0,
                if bin < 3 then 1 else 0]⟩ :=
  ⟨by decide, by decide,
    single_element_scenario satTarget [9, 9, 9, 9] 1 1 0 0 (by decide) (by decide)⟩

/-- C7, the code at a constant buffer: on `[7, 7]` with `numBins = 2` the
quotient by the zero range is not finite, and the bin is whatever its
conversion yields, capped at `numBins - 1`: on the saturating target both
elements land in the last bin (histogram `[0, 2]`, `cdf = [0, 0]`), on the
zero target in bin 0 (histogram `[2, 0]`, `cdf = [0, 2]`). -/
theorem constant_buffer_bin_depends_on_target :
    scaled 2 7 (7 - 7) 7 = none ∧
      histogram satTarget [7, 7] 2 = some [0, 2] ∧
      cdf_cpu satTarget [7, 7] [0, 0] 1 2 2 0 0 = .returned ⟨7, 7, [0, 0]⟩ ∧
      histogram zeroTarget [7, 7] 2 = some [2, 0] ∧
      cdf_cpu zeroTarget [7, 7] [0, 0] 1 2 2 0 0 = .returned ⟨7, 7, [0, 2]⟩ := by
  refine ⟨?_, ?_, ?_, ?_, ?_⟩ <;> decide!

/-- C8 as stated fails: nothing is rejected before the computation.  With
`numBins = 0` and the buffer `[1, 2]` the range pass reads both elements and
the run has written `logLumMin = 1` and `logLumMax = 2` over the initial 5
and 5 when it reaches `histo[bin]++` on the empty histogram. -/
theorem zero_bins_range_written :
    (cdf_cpuF zeroConv [.fin 1, .fin 2] [9] 1 2 0 (.fin 5) (.fin 5)).outputs.logLumMin
        = .fin 1 ∧
      (cdf_cpuF zeroConv [.fin 1, .fin 2] [9] 1 2 0 (.fin 5) (.fin 5)).outputs.logLumMax
        = .fin 2 ∧
      (cdf_cpuF zeroConv [.fin 1, .fin 2] [9] 1 2 0 (.fin 5) (.fin 5)).outputs.logLumMin
        ≠ .fin 5 ∧
      (cdf_cpuF zeroConv [.fin 1, .fin 2] [9] 1 2 0 (.fin 5) (.fin 5)).outputs.logLumMax
        ≠ .fin 5 := by
  refine ⟨?_, ?_, ?_, ?_⟩ <;> decide!

/-- C8 (amended). `cdf_cpu` has no validation step.  With an empty buffer or
with `numBins = 0` the run is not rejected: it makes an access outside an
array (the read of `h_logLuminance[0]` when the buffer is empty, `histo[bin]++`
on the empty histogram when `numBins = 0`).  With a non-empty buffer and
`numBins = 0` the range pass has run over the whole buffer before that access
and `logLumMin`, `logLumMax` hold its result, which for a buffer without NaN
is the least and the greatest element.  Nothing is stated about the output
array or about what the run does from that access on. -/
theorem invalid_size_not_validated (C : Conv) (buf : List F32) (h_cdf : List Nat)
    (numRows numCols numBins : Nat) (a b : F32)
    (hlen : buf.length = numRows * numCols)
    (hbad : numRows * numCols = 0 ∨ numBins = 0) :
    (∃ o, cdf_cpuF C buf h_cdf numRows numCols numBins a b = .undefined o) ∧
      (1 ≤ numRows * numCols →
        (cdf_cpuF C buf h_cdf numRows numCols numBins a b).outputs.logLumMin
            = (lumRangeF buf).1 ∧
          (cdf_cpuF C buf h_cdf numRows numCols numBins a b).outputs.logLumMax
            = (lumRangeF buf).2 ∧
          ((∀ x ∈ buf, x ≠ .nan) →
            (∀ x ∈ buf,
              F32.le (cdf_cpuF C buf h_cdf numRows numCols numBins a b).outputs.logLumMin x
                  = true ∧
                F32.le x (cdf_cpuF C buf h_cdf numRows numCols numBins a b).outputs.logLumMax
                  = true) ∧
            (cdf_cpuF C buf h_cdf numRows numCols numBins a b).outputs.logLumMin ∈ buf ∧
            (cdf_cpuF C buf h_cdf numRows numCols numBins a b).outputs.logLumMax ∈ buf)) := by
  constructor
  · cases buf with
    | nil => exact ⟨_, rfl⟩
    | cons first rest =>
      have hb : numBins = 0 := by
        rcases hbad with h | h
        · rw [h, List.length_cons] at hlen
          omega
        · exact h
      subst hb
      have hn : numCols * numRows = rest.length + 1 := by
        rw [Nat.mul_comm, ← hlen, List.length_cons]
      simp [cdf_cpuF, hn, histoLoop]
  · intro hpos
    have hne : buf ≠ [] := by
      intro h
      rw [h, List.length_nil] at hlen
      omega
    obtain ⟨h1, h2⟩ := cdf_cpuF_outputs_range C buf h_cdf numRows numCols numBins a b hne hlen
    rw [h1, h2]
    exact ⟨rfl, rfl, fun hnan => lumRangeF_spec buf hne hnan⟩

/-- Witness for C8 (amended): the buffer `[1, 2]` with `numBins = 0`. -/
theorem invalid_size_not_validated_witness :
    ([.fin 1, .fin 2] : List F32).length = 1 * 2 ∧ (1 * 2 = 0 ∨ 0 = 0) ∧
      ((∃ o, cdf_cpuF zeroConv [.fin 1, .fin 2] [9] 1 2 0 (.fin 5) (.fin 5) = .undefined o) ∧
        (1 ≤ 1 * 2 →
          (cdf_cpuF zeroConv [.fin 1, .fin 2] [9] 1 2 0 (.fin 5) (.fin 5)).outputs.logLumMin
              = (lumRangeF [.fin 1, .fin 2]).1 ∧
            (cdf_cpuF zeroConv [.fin 1, .fin 2] [9] 1 2 0 (.fin 5) (.fin 5)).outputs.logLumMax
              = (lumRangeF [.fin 1, .fin 2]).2 ∧
            ((∀ x ∈ ([.fin 1, .fin 2] : List F32), x ≠ .nan) →
              (∀ x ∈ ([.fin 1, .fin 2] : List F32),
                F32.le (cdf_cpuF zeroConv [.fin 1, .fin 2] [9] 1 2 0
                    (.fin 5) (.fin 5)).outputs.logLumMin x = true ∧
                  F32.le x (cdf_cpuF zeroConv [.fin 1, .fin 2] [9] 1 2 0
                    (.fin 5) (.fin 5)).outputs.logLumMax = true) ∧
              (cdf_cpuF zeroConv [.fin 1, .fin 2] [9] 1 2 0
                  (.fin 5) (.fin 5)).outputs.logLumMin ∈ ([.fin 1, .fin 2] : List F32) ∧
              (cdf_cpuF zeroConv [.fin 1, .fin 2] [9] 1 2 0
                  (.fin 5) (.fin 5)).outputs.logLumMax ∈ ([.fin 1, .fin 2] : List F32)))) :=
  ⟨by decide, by decide,
    invalid_size_not_validated zeroConv [.fin 1, .fin 2] [9] 1 2 0 (.fin 5) (.fin 5)
      (by decide) (by decide)⟩

/-- C9 as stated fails on a buffer with a NaN element: the range pass depends
on where the NaN stands.  On `[1, NaN, 3]` the run returns
`logLumMin = logLumMax = 3`; on its permutation `[NaN, 1, 3]` it returns
`logLumMin = 1` and `logLumMax = 3`, and another `cdf` (shown where the
conversion of a NaN yields 0). -/
theorem order_dependent_with_nan :
    [F32.nan, .fin 1, .fin 3].Perm [.fin 1, .nan, .fin 3] ∧
      cdf_cpuF zeroConv [.fin 1, .nan, .fin 3] [0, 0] 1 3 2 (.fin 0) (.fin 0)
        = .returned ⟨.fin 3, .fin 3, [0, 3]⟩ ∧
      cdf_cpuF zeroConv [.nan, .fin 1, .fin 3] [0, 0] 1 3 2 (.fin 0) (.fin 0)
        = .returned ⟨.fin 1, .fin 3, [0, 2]⟩ ∧
      cdf_cpuF zeroConv [.nan, .fin 1, .fin 3] [0, 0] 1 3 2 (.fin 0) (.fin 0)
        ≠ cdf_cpuF zeroConv [.fin 1, .nan, .fin 3] [0, 0] 1 3 2 (.fin 0) (.fin 0) := by
  refine ⟨?_, ?_, ?_, ?_⟩
  · exact (List.Perm.swap _ _ _)
  · decide!
  · decide!
  · decide!

/-- C9 (amended). For every non-empty buffer without a NaN element, every
positive `numBins`, an output array of `numBins` entries and every
permutation of the buffer, `cdf_cpu` on the permuted buffer ends as on the
original one, and it returns: the same `logLumMin`, the same `logLumMax` and
the same `cdf`. -/
theorem order_independent_nan_free (C : Conv) (buf buf' : List F32) (h_cdf : List Nat)
    (numRows numCols numBins : Nat) (a b : F32)
    (hperm : buf'.Perm buf)
    (hlen : buf.length = numRows * numCols) (hpos : 1 ≤ numRows * numCols)
    (hnan : ∀ x ∈ buf, x ≠ .nan)
    (hbins : 0 < numBins) (hcap : h_cdf.length = numBins) :
    cdf_cpuF C buf' h_cdf numRows numCols numBins a b
        = cdf_cpuF C buf h_cdf numRows numCols numBins a b ∧
      ∃ o, cdf_cpuF C buf h_cdf numRows numCols numBins a b = .returned o := by
  have hne : buf ≠ [] := by
    intro h
    rw [h, List.length_nil] at hlen
    omega
  have hne' : buf' ≠ [] := by
    intro h
    rw [h] at hperm
    exact hne hperm.symm.eq_nil
  have hlen' : buf'.length = numRows * numCols := by rw [hperm.length_eq, hlen]
  have hmap : (List.range numBins).map (fun i => countBelowF C buf' numBins i % UINT_MOD)
      = (List.range numBins).map (fun i => countBelowF C buf numBins i % UINT_MOD) := by
    apply List.map_congr_left
    intro i _
    rw [countBelowF_perm C buf buf' numBins i hperm hne hnan]
  rw [cdf_cpuF_eq C buf h_cdf numRows numCols numBins a b hne hlen hbins hcap,
    cdf_cpuF_eq C buf' h_cdf numRows numCols numBins a b hne' hlen' hbins hcap,
    lumRangeF_perm buf buf' hperm hne hnan, hmap]
  exact ⟨rfl, _, rfl⟩

/-- Witness for C9 (amended): `[1, 3, 2]` as a permutation of `[3, 1, 2]`. -/
theorem order_independent_nan_free_witness :
    ([.fin 1, .fin 3, .fin 2] : List F32).Perm [.fin 3, .fin 1, .fin 2] ∧
      ([.fin 3, .fin 1, .fin 2] : List F32).length = 1 * 3 ∧ 1 ≤ 1 * 3 ∧
      (∀ x ∈ ([.fin 3, .fin 1, .fin 2] : List F32), x ≠ .nan) ∧
      0 < 2 ∧ ([7, 7] : List Nat).length = 2 ∧
      (cdf_cpuF zeroConv [.fin 1, .fin 3, .fin 2] [7, 7] 1 3 2 (.fin 5) (.fin 5)
          = cdf_cpuF zeroConv [.fin 3, .fin 1, .fin 2] [7, 7] 1 3 2 (.fin 5) (.fin 5) ∧
        ∃ o, cdf_cpuF zeroConv [.fin 3, .fin 1, .fin 2] [7, 7] 1 3 2 (.fin 5) (.fin 5)
          = .returned o) :=
  ⟨List.Perm.swap _ _ _, by decide, by decide, by decide, by decide, by decide,
    order_independent_nan_free zeroConv [.fin 3, .fin 1, .fin 2] [.fin 1, .fin 3, .fin 2]
      [7, 7] 1 3 2 (.fin 5) (.fin 5)
      (List.Perm.swap _ _ _) (by decide) (by decide) (by decide) (by decide) (by decide)⟩

/-- C11 as stated fails on buffers with a NaN element.  On `[1, NaN, 3]` the
run leaves `logLumMax = logLumMin = 3` although the elements differ; on
`[NaN]` it leaves a NaN in both scalars, and `logLumMax >= logLumMin` is
false of a NaN. -/
theorem range_order_fails_with_nan :
    ((cdf_cpuF zeroConv [.fin 1, .nan, .fin 3] [0, 0] 1 3 2 (.fin 0) (.fin 0)).outputs.logLumMax
        = (cdf_cpuF zeroConv [.fin 1, .nan, .fin 3] [0, 0] 1 3 2
            (.fin 0) (.fin 0)).outputs.logLumMin ∧
      ¬ (∀ x ∈ [F32.fin 1, .nan, .fin 3], ∀ y ∈ [F32.fin 1, .nan, .fin 3], x = y)) ∧
      F32.le (cdf_cpuF zeroConv [.nan] [0, 0] 1 1 2 (.fin 0) (.fin 0)).outputs.logLumMin
        (cdf_cpuF zeroConv [.nan] [0, 0] 1 1 2 (.fin 0) (.fin 0)).outputs.logLumMax
        = false := by
  refine ⟨⟨?_, ?_⟩, ?_⟩ <;> decide!

/-- C11 (amended). For every non-empty buffer of `numRows * numCols` elements
none of which is a NaN, the range `cdf_cpu` leaves in the output scalars
satisfies `logLumMax ≥ logLumMin`, and `logLumMax = logLumMin` holds exactly
when all elements of the buffer are equal; with a positive `numBins` and an
output array of at least `numBins` entries the run returns. -/
theorem range_ordered_and_degenerate_iff_constant_nan_free (C : Conv) (buf : List F32)
    (h_cdf : List Nat) (numRows numCols numBins : Nat) (a b : F32)
    (hlen : buf.length = numRows * numCols) (hpos : 1 ≤ numRows * numCols)
    (hnan : ∀ x ∈ buf, x ≠ .nan) :
    F32.le (cdf_cpuF C buf h_cdf numRows numCols numBins a b).outputs.logLumMin
        (cdf_cpuF C buf h_cdf numRows numCols numBins a b).outputs.logLumMax = true ∧
      ((cdf_cpuF C buf h_cdf numRows numCols numBins a b).outputs.logLumMax
          = (cdf_cpuF C buf h_cdf numRows numCols numBins a b).outputs.logLumMin
        ↔ ∀ x ∈ buf, ∀ y ∈ buf, x = y) ∧
      (0 < numBins → numBins ≤ h_cdf.length →
        ∃ o, cdf_cpuF C buf h_cdf numRows numCols numBins a b = .returned o) := by
  have hne : buf ≠ [] := by
    intro h
    rw [h, List.length_nil] at hlen
    omega
  obtain ⟨h1, h2⟩ := cdf_cpuF_outputs_range C buf h_cdf numRows numCols numBins a b hne hlen
  rw [h1, h2]
  obtain ⟨hb, hmn, hmx⟩ := lumRangeF_spec buf hne hnan
  refine ⟨(hb _ hmn).2, ⟨?_, ?_⟩, ?_⟩
  · intro heq x hx y hy
    have hx2 := hb x hx
    have hy2 := hb y hy
    rw [heq] at hx2 hy2
    rw [leF_antisymm _ _ hx2.2 hx2.1, leF_antisymm _ _ hy2.2 hy2.1]
  · intro hall
    exact hall _ hmx _ hmn
  · intro hbins hcap
    rw [cdf_cpuF_eq_cap C buf h_cdf numRows numCols numBins a b hne hlen hbins hcap]
    exact ⟨_, rfl⟩

/-- Witness for C11 (amended): the buffer `[3, 1, 2]` as one row of three
columns. -/
theorem range_ordered_and_degenerate_iff_constant_nan_free_witness :
    ([.fin 3, .fin 1, .fin 2] : List F32).length = 1 * 3 ∧ 1 ≤ 1 * 3 ∧
      (∀ x ∈ ([.fin 3, .fin 1, .fin 2] : List F32), x ≠ .nan) ∧
      (F32.le (cdf_cpuF zeroConv [.fin 3, .fin 1, .fin 2] [0, 0] 1 3 2
            (.fin 0) (.fin 0)).outputs.logLumMin
          (cdf_cpuF zeroConv [.fin 3, .fin 1, .fin 2] [0, 0] 1 3 2
            (.fin 0) (.fin 0)).outputs.logLumMax = true ∧
        ((cdf_cpuF zeroConv [.fin 3, .fin 1, .fin 2] [0, 0] 1 3 2
              (.fin 0) (.fin 0)).outputs.logLumMax
            = (cdf_cpuF zeroConv [.fin 3, .fin 1, .fin 2] [0, 0] 1 3 2
              (.fin 0) (.fin 0)).outputs.logLumMin
          ↔ ∀ x ∈ ([.fin 3, .fin 1, .fin 2] : List F32),
              ∀ y ∈ ([.fin 3, .fin 1, .fin 2] : List F32), x = y) ∧
        (0 < 2 → 2 ≤ ([0, 0] : List Nat).length →
          ∃ o, cdf_cpuF zeroConv [.fin 3, .fin 1, .fin 2] [0, 0] 1 3 2 (.fin 0) (.fin 0)
            = .returned o)) :=
  ⟨by decide, by decide, by decide,
    range_ordered_and_degenerate_iff_constant_nan_free zeroConv [.fin 3, .fin 1, .fin 2]
      [0, 0] 1 3 2 (.fin 0) (.fin 0) (by decide) (by decide) (by decide)⟩

/-- C12 as stated fails: the code computes the quotient and the product in
binary32.  On the buffer `[0, 13, 22]` with 22 bins the exact value of
`(13 - 0) / (22 - 0) * 22` is 13, so the stated formula gives bin 13, but the
float quotient is below `13 / 22` and the float product is `12.999999`: the
code assigns bin 12 on every target, and the run returns `cdf[13] = 2` where
one element has a stated bin below 13.  The two bounds of the amended claim
are needed as well: with `numBins = 2^32 - 128` the float of `numBins` is
`2^32` and on `[0, 1]` the conversion of the scaled maximum is left open (bin
0 where it yields 0); on `[-2^127, 0, 2^127]` the range overflows to infinity
and the scaled maximum is a NaN (bin 0 or bin 3 of 4, by the target); on
`[0, NaN, 1, 3]` the run returns the range 1 to 3, the scaled value of the
element 0 is -2 and its bin is 3 where the conversion saturates, against the
clamped floor 0. -/
theorem clamped_floor_fails_in_binary32 :
    (binOfF zeroConv [.fin 0, .fin 13, .fin 22] 22 (.fin 13) = 12 ∧
        binOfF satConv [.fin 0, .fin 13, .fin 22] 22 (.fin 13) = 12 ∧
        specBin 22 0 22 13 = 13 ∧
        cdf_cpuF zeroConv [.fin 0, .fin 13, .fin 22] (List.replicate 22 0) 1 3 22
            (.fin 0) (.fin 0)
          = .returned ⟨.fin 0, .fin 22,
              [0, 1, 1, 1, 1, 1, 1, 1, 1, 1, 1, 1, 1, 2, 2, 2, 2, 2, 2, 2, 2, 2]⟩ ∧
        ([0, 13, 22] : List ℚ).countP (fun x => decide (specBin 22 0 22 x < 13)) = 1) ∧
      (scaledF 4294967168 (.fin 0) (.fin 1) (.fin 1) = .fin 4294967296 ∧
        binOfF zeroConv [.fin 0, .fin 1] 4294967168 (.fin 1) = 0) ∧
      (lumSpanF [.fin (-170141183460469231731687303715884105728), .fin 0,
            .fin 170141183460469231731687303715884105728] = .pinf ∧
        binOfF zeroConv [.fin (-170141183460469231731687303715884105728), .fin 0,
            .fin 170141183460469231731687303715884105728] 4
          (.fin 170141183460469231731687303715884105728) = 0 ∧
        binOfF satConv [.fin (-170141183460469231731687303715884105728), .fin 0,
            .fin 170141183460469231731687303715884105728] 4
          (.fin 170141183460469231731687303715884105728) = 3) ∧
      (cdf_cpuF satConv [.fin 0, .nan, .fin 1, .fin 3] [0, 0, 0, 0] 1 4 4 (.fin 0) (.fin 0)
          = .returned ⟨.fin 1, .fin 3, [0, 1, 1, 1]⟩ ∧
        specBinF 4 (.fin 1) (.fin 3) (.fin 0) = some 0 ∧
        binOfF satConv [.fin 0, .nan, .fin 1, .fin 3] 4 (.fin 0) = 3) := by
  refine ⟨⟨?_, ?_, ?_, ?_, ?_⟩, ⟨?_, ?_⟩, ⟨?_, ?_, ?_⟩, ?_, ?_, ?_⟩ <;> decide!

/-- C12 (amended). For every non-empty buffer of binary32 values without NaN,
with `logLumMax > logLumMin` and a range `logLumMax - logLumMin` that has not
overflowed to infinity, every positive `numBins` below `2^32 - 128` (the
values whose float is below `2^32`) and an output array of `numBins` entries,
`cdf_cpu` returns the global minimum and maximum of the buffer, and the bin
index it assigns to each element `x` equals
`clamp(floor(v), 0, numBins - 1)`, where `v` is the binary32 value of
`(x - min) / (max - min) * numBins` with every operation rounded as in the
code: the truncating cast with the upper bound `min(numBins-1, .)` agrees
with the two-sided clamp of the floor.  Entry `i` of the returned `cdf` is
the number of elements whose clamped floor is below `i`, modulo `2^32`. -/
theorem bin_index_is_clamped_floor_of_float_value (C : Conv) (buf : List F32)
    (h_cdf : List Nat) (numRows numCols numBins : Nat) (a b : F32)
    (hlen : buf.length = numRows * numCols) (hpos : 1 ≤ numRows * numCols)
    (hnan : ∀ x ∈ buf, x ≠ .nan) (hrep : ∀ x ∈ buf, F32.isBinary32 x = true)
    (hlt : F32.lt (lumRangeF buf).1 (lumRangeF buf).2 = true)
    (hfin : lumSpanF buf ≠ .pinf)
    (hbins : 0 < numBins) (hbins2 : numBins < 4294967168) (hcap : h_cdf.length = numBins) :
    ∃ o, cdf_cpuF C buf h_cdf numRows numCols numBins a b = .returned o ∧
      o.logLumMin = (lumRangeF buf).1 ∧ o.logLumMax = (lumRangeF buf).2 ∧
      (∀ x ∈ buf, F32.le o.logLumMin x = true ∧ F32.le x o.logLumMax = true) ∧
      o.logLumMin ∈ buf ∧ o.logLumMax ∈ buf ∧
      (∀ x ∈ buf,
        specBinF numBins o.logLumMin o.logLumMax x = some (binOfF C buf numBins x : Int)) ∧
      (∀ i, i < numBins →
        o.h_cdf.getD i 0
          = buf.countP (specBelowF numBins o.logLumMin o.logLumMax i) % UINT_MOD) := by
  have hne : buf ≠ [] := by
    intro h
    rw [h, List.length_nil] at hlen
    omega
  obtain ⟨s1, s2, s3⟩ := lumRangeF_spec buf hne hnan
  obtain ⟨r, hr, hr0⟩ := lumSpanF_fin_pos buf hne hrep hlt hfin
  have hspec : ∀ x ∈ buf,
      specBinF numBins (lumRangeF buf).1 (lumRangeF buf).2 x
        = some (binOfF C buf numBins x : Int) := by
    intro x hx
    obtain ⟨v, hv, _, hb⟩ := binOfF_eq_clamp C buf numBins r hne hnan hr hr0 hbins hbins2 x hx
    unfold specBinF
    have hv2 : scaledF numBins (lumRangeF buf).1
        (F32.sub (lumRangeF buf).2 (lumRangeF buf).1) x = .fin v := hv
    rw [hv2, hb]
  refine ⟨_, cdf_cpuF_eq C buf h_cdf numRows numCols numBins a b hne hlen hbins hcap,
    rfl, rfl, s1, s2, s3, hspec, ?_⟩
  intro i hi
  rw [getD_map_range _ _ _ hi]
  congr 1
  unfold countBelowF
  apply List.countP_congr
  intro x hx
  unfold specBelowF
  rw [hspec x hx]
  simp

/-- Witness for C12 (amended): the buffer `[3, 1, 2]` with two bins. -/
theorem bin_index_is_clamped_floor_of_float_value_witness :
    ([.fin 3, .fin 1, .fin 2] : List F32).length = 1 * 3 ∧ 1 ≤ 1 * 3 ∧
      (∀ x ∈ ([.fin 3, .fin 1, .fin 2] : List F32), x ≠ .nan) ∧
      (∀ x ∈ ([.fin 3, .fin 1, .fin 2] : List F32), F32.isBinary32 x = true) ∧
      F32.lt (lumRangeF [.fin 3, .fin 1, .fin 2]).1 (lumRangeF [.fin 3, .fin 1, .fin 2]).2
        = true ∧
      lumSpanF [.fin 3, .fin 1, .fin 2] ≠ .pinf ∧
      0 < 2 ∧ 2 < 4294967168 ∧ ([7, 7] : List Nat).length = 2 ∧
      ∃ o, cdf_cpuF zeroConv [.fin 3, .fin 1, .fin 2] [7, 7] 1 3 2 (.fin 5) (.fin 5)
          = .returned o ∧
        o.logLumMin = (lumRangeF [.fin 3, .fin 1, .fin 2]).1 ∧
        o.logLumMax = (lumRangeF [.fin 3, .fin 1, .fin 2]).2 ∧
        (∀ x ∈ ([.fin 3, .fin 1, .fin 2] : List F32),
          F32.le o.logLumMin x = true ∧ F32.le x o.logLumMax = true) ∧
        o.logLumMin ∈ ([.fin 3, .fin 1, .fin 2] : List F32) ∧
        o.logLumMax ∈ ([.fin 3, .fin 1, .fin 2] : List F32) ∧
        (∀ x ∈ ([.fin 3, .fin 1, .fin 2] : List F32),
          specBinF 2 o.logLumMin o.logLumMax x
            = some (binOfF zeroConv [.fin 3, .fin 1, .fin 2] 2 x : Int)) ∧
        (∀ i, i < 2 →
          o.h_cdf.getD i 0
            = ([.fin 3, .fin 1, .fin 2] : List F32).countP
                (specBelowF 2 o.logLumMin o.logLumMax i) % UINT_MOD) :=
  ⟨by decide, by decide, by decide, by decide!, by decide!, by decide!, by decide, by decide,
    by decide,
    bin_index_is_clamped_floor_of_float_value zeroConv [.fin 3, .fin 1, .fin 2] [7, 7] 1 3 2
      (.fin 5) (.fin 5) (by decide) (by decide) (by decide) (by decide!) (by decide!)
      (by decide!) (by decide) (by decide) (by decide)⟩

/-- C14 as stated fails in binary32 in four ways.  On `[0, 1]` with
`numBins = 2^25 + 2` the float of `numBins` is `2^25`, so the maximum is
assigned bin `2^25 = numBins - 2` on every target.  On
`[-2^127, 0, 2^127]` the range overflows to infinity and the maximum is
assigned bin 0 where the conversion of a NaN yields 0.  On `[-inf, 0]` the
scaled minimum is a NaN and is assigned the last bin where the conversion
saturates.  On `wideBufferF` with two bins the counter of bin 0 wraps: the
histogram is `[0, 1]` and `cdf = [0, 0]`, so neither `histogram[0] ≥ 1` nor
`cdf[1] ≥ 1` holds. -/
theorem extreme_bins_fail_in_binary32 :
    (F32.lt (lumRangeF [.fin 0, .fin 1]).1 (lumRangeF [.fin 0, .fin 1]).2 = true ∧
        (lumRangeF [.fin 0, .fin 1]).2 = .fin 1 ∧
        F32.ofNat 33554434 = .fin 33554432 ∧
        binOfF zeroConv [.fin 0, .fin 1] 33554434 (.fin 1) = 33554432 ∧
        binOfF satConv [.fin 0, .fin 1] 33554434 (.fin 1) = 33554432 ∧
        33554432 ≠ 33554434 - 1) ∧
      ((lumRangeF [.fin (-170141183460469231731687303715884105728), .fin 0,
            .fin 170141183460469231731687303715884105728]).2
          = .fin 170141183460469231731687303715884105728 ∧
        lumSpanF [.fin (-170141183460469231731687303715884105728), .fin 0,
            .fin 170141183460469231731687303715884105728] = .pinf ∧
        binOfF zeroConv [.fin (-170141183460469231731687303715884105728), .fin 0,
            .fin 170141183460469231731687303715884105728] 4
          (.fin 170141183460469231731687303715884105728) = 0) ∧
      ((lumRangeF [.ninf, .fin 0]).1 = .ninf ∧
        F32.lt (lumRangeF [.ninf, .fin 0]).1 (lumRangeF [.ninf, .fin 0]).2 = true ∧
        binOfF satConv [.ninf, .fin 0] 4 .ninf = 3) ∧
      (F32.lt (lumRangeF wideBufferF).1 (lumRangeF wideBufferF).2 = true ∧
        wideBufferF.length = 1 * 4294967297 ∧
        histogramF zeroConv wideBufferF 2 = some [0, 1] ∧
        cdf_cpuF zeroConv wideBufferF [0, 0] 1 4294967297 2 (.fin 0) (.fin 0)
          = .returned ⟨.fin 0, .fin 1, [0, 0]⟩ ∧
        ¬ (1 ≤ (cdf_cpuF zeroConv wideBufferF [0, 0] 1 4294967297 2
            (.fin 0) (.fin 0)).outputs.h_cdf.getD 1 0)) := by
  refine ⟨⟨?_, ?_, ?_, ?_, ?_, ?_⟩, ⟨?_, ?_, ?_⟩, ⟨?_, ?_, ?_⟩,
    ?_, length_wideBufferF, histogramF_wideBufferF,
    cdf_cpuF_wideBufferF [0, 0] (.fin 0) (.fin 0) rfl, ?_⟩
  · decide!
  · decide!
  · decide!
  · decide!
  · decide!
  · decide
  · decide!
  · decide!
  · decide!
  · decide!
  · decide!
  · decide!
  · rw [lumRangeF_wideBufferF]
    decide!
  · rw [cdf_cpuF_wideBufferF [0, 0] (.fin 0) (.fin 0) rfl]
    decide

/-- C14 (amended). For every non-empty buffer of binary32 values with
`logLumMax > logLumMin`, every positive `numBins` and an output array of
`numBins` entries, `cdf_cpu` returns, and:
when `logLumMin` is not minus infinity, every element equal to `logLumMin`
is assigned bin 0, and with fewer than `2^32` elements `histogram[0] ≥ 1`
and, when `numBins ≥ 2`, `cdf[1] ≥ 1`;
when the range `logLumMax - logLumMin` has not overflowed to infinity and the
float of `numBins` is at least `numBins - 1` and below `2^32` (as for every
`numBins` up to `2^24`), every element equal to `logLumMax` is assigned bin
`numBins - 1`, and with fewer than `2^32` elements
`histogram[numBins-1] ≥ 1` and, when `numBins ≥ 2`,
`cdf[numBins-1] < numRows * numCols`. -/
theorem extreme_elements_bins_in_binary32 (C : Conv) (buf : List F32) (h_cdf : List Nat)
    (numRows numCols numBins : Nat) (a b : F32)
    (hlen : buf.length = numRows * numCols) (hpos : 1 ≤ numRows * numCols)
    (hrep : ∀ x ∈ buf, F32.isBinary32 x = true)
    (hlt : F32.lt (lumRangeF buf).1 (lumRangeF buf).2 = true)
    (hbins : 0 < numBins) (hcap : h_cdf.length = numBins) :
    ∃ o histo, cdf_cpuF C buf h_cdf numRows numCols numBins a b = .returned o ∧
      o.logLumMin = (lumRangeF buf).1 ∧ o.logLumMax = (lumRangeF buf).2 ∧
      histogramF C buf numBins = some histo ∧
      (o.logLumMin ≠ .ninf →
        (∀ x ∈ buf, x = o.logLumMin → binOfF C buf numBins x = 0) ∧
        (numRows * numCols < UINT_MOD →
          1 ≤ histo.getD 0 0 ∧ (2 ≤ numBins → 1 ≤ o.h_cdf.getD 1 0))) ∧
      (F32.sub o.logLumMax o.logLumMin ≠ .pinf → numBinsFloatOk numBins = true →
        (∀ x ∈ buf, x = o.logLumMax → binOfF C buf numBins x = numBins - 1) ∧
        (numRows * numCols < UINT_MOD →
          1 ≤ histo.getD (numBins - 1) 0 ∧
          (2 ≤ numBins → o.h_cdf.getD (numBins - 1) 0 < numRows * numCols))) := by
  have hne : buf ≠ [] := by
    intro h
    rw [h, List.length_nil] at hlen
    omega
  obtain ⟨hmn, hmx⟩ := lumRangeF_mem buf hne
  have hspan := lumSpanF_pos buf hne hrep hlt
  have hlast : numBins - 1 < numBins := by omega
  have hB : ∀ j, numRows * numCols < UINT_MOD →
      binCountF C buf numBins j % UINT_MOD = binCountF C buf numBins j := by
    intro j hs
    apply Nat.mod_eq_of_lt
    have hc : binCountF C buf numBins j ≤ buf.length := List.countP_le_length _
    rw [hlen] at hc
    omega
  have hCB : ∀ i, numRows * numCols < UINT_MOD →
      countBelowF C buf numBins i % UINT_MOD = countBelowF C buf numBins i := by
    intro i hs
    apply Nat.mod_eq_of_lt
    have hc : countBelowF C buf numBins i ≤ buf.length := List.countP_le_length _
    rw [hlen] at hc
    omega
  refine ⟨_, _, cdf_cpuF_eq C buf h_cdf numRows numCols numBins a b hne hlen hbins hcap,
    rfl, rfl, histogramF_eq C buf numBins hbins, ?_, ?_⟩
  · intro hninf
    simp only at hninf
    have hq : ∃ q, (lumRangeF buf).1 = .fin q := by
      cases hm : (lumRangeF buf).1 with
      | nan => rw [hm] at hlt; simp [F32.lt] at hlt
      | ninf => exact absurd hm hninf
      | pinf =>
        rw [hm] at hlt
        cases hM : (lumRangeF buf).2 <;> rw [hM] at hlt <;> simp [F32.lt] at hlt
      | fin q => exact ⟨q, rfl⟩
    obtain ⟨q, hq⟩ := hq
    have he0 : binOfF C buf numBins (lumRangeF buf).1 = 0 := by
      rw [hq]
      exact binOfF_min C buf numBins q hq hspan
    have hc0 : 1 ≤ binCountF C buf numBins 0 :=
      List.countP_pos_iff.mpr ⟨_, hmn, by simpa using he0⟩
    refine ⟨fun x _ hx => hx ▸ he0, ?_⟩
    intro hsmall
    constructor
    · rw [getD_map_range _ _ _ hbins, hB 0 hsmall]
      exact hc0
    · intro h2
      rw [getD_map_range _ _ _ (by omega : 1 < numBins), hCB 1 hsmall,
        countBelowF_succ C buf numBins 0]
      omega
  · intro hfin hok
    simp only at hfin
    obtain ⟨r, hr, hr0⟩ := lumSpanF_fin_pos buf hne hrep hlt hfin
    obtain ⟨ea, eb, hrange, _⟩ := lumSpanF_fin_ends buf r hr
    obtain ⟨n, hn, hn1, hn2⟩ := numBinsFloatOk_spec numBins hok
    have he1 : binOfF C buf numBins (lumRangeF buf).2 = numBins - 1 := by
      rw [hrange]
      exact binOfF_max C buf numBins ea eb r n hrange hr hr0 hbins hn hn1 hn2
    have hc1 : 1 ≤ binCountF C buf numBins (numBins - 1) :=
      List.countP_pos_iff.mpr ⟨_, hmx, by simpa using he1⟩
    have hmass : countBelowF C buf numBins (numBins - 1)
        + binCountF C buf numBins (numBins - 1) = numRows * numCols := by
      rw [← countBelowF_succ, Nat.sub_add_cancel hbins, countBelowF_numBins C buf numBins hbins,
        hlen]
    refine ⟨fun x _ hx => hx ▸ he1, ?_⟩
    intro hsmall
    constructor
    · rw [getD_map_range _ _ _ hlast, hB _ hsmall]
      exact hc1
    · intro _
      rw [getD_map_range _ _ _ hlast, hCB _ hsmall]
      omega

/-- Witness for C14 (amended): the buffer `[3, 1, 2]` with two bins; the
minimum 1 has bin 0 and the maximum 3 has bin 1. -/
theorem extreme_elements_bins_in_binary32_witness :
    ([.fin 3, .fin 1, .fin 2] : List F32).length = 1 * 3 ∧ 1 ≤ 1 * 3 ∧
      (∀ x ∈ ([.fin 3, .fin 1, .fin 2] : List F32), F32.isBinary32 x = true) ∧
      F32.lt (lumRangeF [.fin 3, .fin 1, .fin 2]).1 (lumRangeF [.fin 3, .fin 1, .fin 2]).2
        = true ∧
      0 < 2 ∧ ([7, 7] : List Nat).length = 2 ∧
      (lumRangeF [.fin 3, .fin 1, .fin 2]).1 ≠ .ninf ∧
      lumSpanF [.fin 3, .fin 1, .fin 2] ≠ .pinf ∧ numBinsFloatOk 2 = true ∧
      1 * 3 < UINT_MOD ∧
      ∃ o histo, cdf_cpuF zeroConv [.fin 3, .fin 1, .fin 2] [7, 7] 1 3 2 (.fin 5) (.fin 5)
          = .returned o ∧
        o.logLumMin = (lumRangeF [.fin 3, .fin 1, .fin 2]).1 ∧
        o.logLumMax = (lumRangeF [.fin 3, .fin 1, .fin 2]).2 ∧
        histogramF zeroConv [.fin 3, .fin 1, .fin 2] 2 = some histo ∧
        (o.logLumMin ≠ .ninf →
          (∀ x ∈ ([.fin 3, .fin 1, .fin 2] : List F32), x = o.logLumMin →
            binOfF zeroConv [.fin 3, .fin 1, .fin 2] 2 x = 0) ∧
          (1 * 3 < UINT_MOD →
            1 ≤ histo.getD 0 0 ∧ (2 ≤ 2 → 1 ≤ o.h_cdf.getD 1 0))) ∧
        (F32.sub o.logLumMax o.logLumMin ≠ .pinf → numBinsFloatOk 2 = true →
          (∀ x ∈ ([.fin 3, .fin 1, .fin 2] : List F32), x = o.logLumMax →
            binOfF zeroConv [.fin 3, .fin 1, .fin 2] 2 x = 2 - 1) ∧
          (1 * 3 < UINT_MOD →
            1 ≤ histo.getD (2 - 1) 0 ∧
            (2 ≤ 2 → o.h_cdf.getD (2 - 1) 0 < 1 * 3))) :=
  ⟨by decide, by decide, by decide!, by decide!, by decide, by decide, by decide!, by decide!,
    by decide!, by decide,
    extreme_elements_bins_in_binary32 zeroConv [.fin 3, .fin 1, .fin 2] [7, 7] 1 3 2
      (.fin 5) (.fin 5) (by decide) (by decide) (by decide!) (by decide!) (by decide)
      (by decide)⟩

/-- C15 as stated fails in three ways.  On `[0, 1/2, 1]` with
`numBins = 2^32 - 1`, and already with `numBins = 2^32 - 128`, the float of
`numBins` is `2^32`, the scaled maximum is `2^32` and its conversion is left
open: where it yields 0 the bins are 0, `2^31`, 0.  On `[0, NaN, 1, 3]` the
range pass leaves 1 and 3, the scaled value of the element 0 is -2, and where
the conversion saturates the element 0 is assigned bin 3 and the element 1
bin 0.  On `wideBufferF3` with three bins the bins are monotone but the scan
wraps: the run returns `cdf = [0, 4294967295, 1]`, so `cdf[bin(1)]` exceeds
`cdf[bin(2)]`. -/
theorem monotone_bins_fail_in_binary32 :
    (F32.lt (lumRangeF [.fin 0, .fin (1 / 2), .fin 1]).1
          (lumRangeF [.fin 0, .fin (1 / 2), .fin 1]).2 = true ∧
        F32.le (.fin (1 / 2)) (.fin 1) = true ∧
        F32.ofNat 4294967295 = .fin 4294967296 ∧
        binOfF zeroConv [.fin 0, .fin (1 / 2), .fin 1] 4294967295 (.fin (1 / 2)) = 2147483648 ∧
        binOfF zeroConv [.fin 0, .fin (1 / 2), .fin 1] 4294967295 (.fin 1) = 0 ∧
        F32.ofNat 4294967168 = .fin 4294967296 ∧
        binOfF zeroConv [.fin 0, .fin (1 / 2), .fin 1] 4294967168 (.fin (1 / 2)) = 2147483648 ∧
        binOfF zeroConv [.fin 0, .fin (1 / 2), .fin 1] 4294967168 (.fin 1) = 0) ∧
      (cdf_cpuF satConv [.fin 0, .nan, .fin 1, .fin 3] [0, 0, 0, 0] 1 4 4 (.fin 0) (.fin 0)
          = .returned ⟨.fin 1, .fin 3, [0, 1, 1, 1]⟩ ∧
        F32.le (.fin 0) (.fin 1) = true ∧
        binOfF satConv [.fin 0, .nan, .fin 1, .fin 3] 4 (.fin 0) = 3 ∧
        binOfF satConv [.fin 0, .nan, .fin 1, .fin 3] 4 (.fin 1) = 0) ∧
      (F32.lt (lumRangeF wideBufferF3).1 (lumRangeF wideBufferF3).2 = true ∧
        wideBufferF3.length = 1 * 4294967298 ∧
        F32.fin 1 ∈ wideBufferF3 ∧ F32.fin 2 ∈ wideBufferF3 ∧
        F32.le (.fin 1) (.fin 2) = true ∧
        binOfF zeroConv wideBufferF3 3 (.fin 1) = 1 ∧
        binOfF zeroConv wideBufferF3 3 (.fin 2) = 2 ∧
        cdf_cpuF zeroConv wideBufferF3 [0, 0, 0] 1 4294967298 3 (.fin 0) (.fin 0)
          = .returned ⟨.fin 0, .fin 2, [0, 4294967295, 1]⟩ ∧
        ¬ ((cdf_cpuF zeroConv wideBufferF3 [0, 0, 0] 1 4294967298 3
              (.fin 0) (.fin 0)).outputs.h_cdf.getD 1 0
            ≤ (cdf_cpuF zeroConv wideBufferF3 [0, 0, 0] 1 4294967298 3
              (.fin 0) (.fin 0)).outputs.h_cdf.getD 2 0)) := by
  refine ⟨⟨?_, ?_, ?_, ?_, ?_, ?_, ?_, ?_⟩, ⟨?_, ?_, ?_, ?_⟩,
    ?_, length_wideBufferF3, (mem_wideBufferF3 _).mpr (Or.inr (Or.inl rfl)),
    (mem_wideBufferF3 _).mpr (Or.inr (Or.inr rfl)), ?_,
    binOfF_wideBufferF3.2.1, binOfF_wideBufferF3.2.2,
    cdf_cpuF_wideBufferF3 [0, 0, 0] (.fin 0) (.fin 0) rfl, ?_⟩
  · decide!
  · decide!
  · decide!
  · decide!
  · decide!
  · decide!
  · decide!
  · decide!
  · decide!
  · decide!
  · decide!
  · decide!
  · rw [lumRangeF_wideBufferF3]
    decide!
  · decide!
  · rw [cdf_cpuF_wideBufferF3 [0, 0, 0] (.fin 0) (.fin 0) rfl]
    decide

/-- C15 (amended). Bin assignment is monotone in the luminance value on
buffers without NaN when the float of `numBins` is below `2^32`: for every
non-empty buffer without a NaN element, every positive `numBins` below
`2^32 - 128` and an output array of `numBins` entries, `cdf_cpu` returns, and
for every two elements `x ≤ y` of the buffer the bin index assigned to `x` is
at most the one assigned to `y`; with fewer than `2^32` elements also
`cdf[bin(x)] ≤ cdf[bin(y)]`. -/
theorem bin_assignment_monotone_in_binary32 (C : Conv) (buf : List F32) (h_cdf : List Nat)
    (numRows numCols numBins : Nat) (a b : F32)
    (hlen : buf.length = numRows * numCols) (hpos : 1 ≤ numRows * numCols)
    (hnan : ∀ x ∈ buf, x ≠ .nan)
    (hbins : 0 < numBins) (hbins2 : numBins < 4294967168) (hcap : h_cdf.length = numBins) :
    ∃ o, cdf_cpuF C buf h_cdf numRows numCols numBins a b = .returned o ∧
      o.logLumMin = (lumRangeF buf).1 ∧ o.logLumMax = (lumRangeF buf).2 ∧
      (∀ x ∈ buf, ∀ y ∈ buf, F32.le x y = true →
        binOfF C buf numBins x ≤ binOfF C buf numBins y) ∧
      (numRows * numCols < UINT_MOD →
        ∀ x ∈ buf, ∀ y ∈ buf, F32.le x y = true →
          o.h_cdf.getD (binOfF C buf numBins x) 0
            ≤ o.h_cdf.getD (binOfF C buf numBins y) 0) := by
  have hne : buf ≠ [] := by
    intro h
    rw [h, List.length_nil] at hlen
    omega
  have hmono : ∀ x ∈ buf, ∀ y ∈ buf, F32.le x y = true →
      binOfF C buf numBins x ≤ binOfF C buf numBins y :=
    fun x hx y hy hxy => binOfF_mono C buf numBins hne hnan hbins2 x y hx hy hxy
  refine ⟨_, cdf_cpuF_eq C buf h_cdf numRows numCols numBins a b hne hlen hbins hcap,
    rfl, rfl, hmono, ?_⟩
  intro hsmall x hx y hy hxy
  have hCB : ∀ i, countBelowF C buf numBins i % UINT_MOD = countBelowF C buf numBins i := by
    intro i
    apply Nat.mod_eq_of_lt
    have hc : countBelowF C buf numBins i ≤ buf.length := List.countP_le_length _
    rw [hlen] at hc
    omega
  rw [getD_map_range _ _ _ (binOfF_lt C buf numBins x hbins),
    getD_map_range _ _ _ (binOfF_lt C buf numBins y hbins), hCB, hCB]
  exact countBelowF_mono C buf numBins _ _ (hmono x hx y hy hxy)

/-- Witness for C15 (amended): the buffer `[3, 1, 2]` with two bins. -/
theorem bin_assignment_monotone_in_binary32_witness :
    ([.fin 3, .fin 1, .fin 2] : List F32).length = 1 * 3 ∧ 1 ≤ 1 * 3 ∧
      (∀ x ∈ ([.fin 3, .fin 1, .fin 2] : List F32), x ≠ .nan) ∧
      0 < 2 ∧ 2 < 4294967168 ∧ ([7, 7] : List Nat).length = 2 ∧
      ∃ o, cdf_cpuF zeroConv [.fin 3, .fin 1, .fin 2] [7, 7] 1 3 2 (.fin 5) (.fin 5)
          = .returned o ∧
        o.logLumMin = (lumRangeF [.fin 3, .fin 1, .fin 2]).1 ∧
        o.logLumMax = (lumRangeF [.fin 3, .fin 1, .fin 2]).2 ∧
        (∀ x ∈ ([.fin 3, .fin 1, .fin 2] : List F32),
          ∀ y ∈ ([.fin 3, .fin 1, .fin 2] : List F32), F32.le x y = true →
            binOfF zeroConv [.fin 3, .fin 1, .fin 2] 2 x
              ≤ binOfF zeroConv [.fin 3, .fin 1, .fin 2] 2 y) ∧
        (1 * 3 < UINT_MOD →
          ∀ x ∈ ([.fin 3, .fin 1, .fin 2] : List F32),
            ∀ y ∈ ([.fin 3, .fin 1, .fin 2] : List F32), F32.le x y = true →
              o.h_cdf.getD (binOfF zeroConv [.fin 3, .fin 1, .fin 2] 2 x) 0
                ≤ o.h_cdf.getD (binOfF zeroConv [.fin 3, .fin 1, .fin 2] 2 y) 0) :=
  ⟨by decide, by decide, by decide, by decide, by decide, by decide,
    bin_assignment_monotone_in_binary32 zeroConv [.fin 3, .fin 1, .fin 2] [7, 7] 1 3 2
      (.fin 5) (.fin 5) (by decide) (by decide) (by decide) (by decide) (by decide)
      (by decide)⟩

/-- C16. For every non-empty buffer `buf`, every `a > 0`, every offset `c`,
every positive `numBins` and an output array of `numBins` entries, `cdf_cpu`
on the buffer of the values `a * x + c` returns the same `cdf` as on `buf`,
with `logLumMin' = a * logLumMin + c` and `logLumMax' = a * logLumMax + c`. -/
theorem affine_rescaling_invariant (T : Target) (buf : List ℚ) (h_cdf : List Nat)
    (numRows numCols numBins : Nat) (m0 m1 a c : ℚ)
    (ha : 0 < a)
    (hlen : buf.length = numRows * numCols) (hpos : 1 ≤ numRows * numCols)
    (hbins : 0 < numBins) (hcap : h_cdf.length = numBins) :
    ∃ o, cdf_cpu T buf h_cdf numRows numCols numBins m0 m1 = .returned o ∧
      cdf_cpu T (rescale a c buf) h_cdf numRows numCols numBins m0 m1
        = .returned ⟨a * o.logLumMin + c, a * o.logLumMax + c, o.h_cdf⟩ := by
  have hne : buf ≠ [] := by
    intro h
    rw [h, List.length_nil] at hlen
    omega
  have hne' : rescale a c buf ≠ [] := by
    unfold rescale
    simpa using hne
  have hlen' : (rescale a c buf).length = numRows * numCols := by
    unfold rescale
    rw [List.length_map, hlen]
  have hmap : (List.range numBins).map
        (fun i => countBelow T (rescale a c buf) numBins i % UINT_MOD)
      = (List.range numBins).map (fun i => countBelow T buf numBins i % UINT_MOD) := by
    apply List.map_congr_left
    intro i _
    rw [countBelow_rescale T a c buf numBins i ha hne]
  refine ⟨_, cdf_cpu_eq T buf h_cdf numRows numCols numBins m0 m1 hne hlen hbins hcap, ?_⟩
  rw [cdf_cpu_eq T (rescale a c buf) h_cdf numRows numCols numBins m0 m1 hne' hlen' hbins hcap,
    lumRange_rescale a c buf ha hne, hmap]

/-- Witness for C16: the buffer `[3, 1, 2]` rescaled by `x ↦ 2 * x - 5`. -/
theorem affine_rescaling_invariant_witness :
    (0 : ℚ) < 2 ∧ ([3, 1, 2] : List ℚ).length = 1 * 3 ∧ 1 ≤ 1 * 3 ∧ 0 < 2 ∧
      ([7, 7] : List Nat).length = 2 ∧
      ∃ o, cdf_cpu zeroTarget [3, 1, 2] [7, 7] 1 3 2 0 0 = .returned o ∧
        cdf_cpu zeroTarget (rescale 2 (-5) [3, 1, 2]) [7, 7] 1 3 2 0 0
          = .returned ⟨2 * o.logLumMin + -5, 2 * o.logLumMax + -5, o.h_cdf⟩ :=
  ⟨by norm_num, by decide, by decide, by decide, by decide,
    affine_rescaling_invariant zeroTarget [3, 1, 2] [7, 7] 1 3 2 0 0 2 (-5)
      (by norm_num) (by decide) (by decide) (by decide) (by decide)⟩

end CdfCpu
